import Mathlib

/-!
Verification development for the `cleantext` streaming command
(`bin/cleantext.py`): a per-record, single-field text-normalization
pipeline (URL removal, tokenization, default cleaning, base-form
reduction, stopword filtering, output shaping).

The Python code operates on byte strings, so all regex character
classes below have their ASCII meaning:
  `\w` = `[a-zA-Z0-9_]`, `\d` = `[0-9]`, `\s` = `[ \t\n\r\v\f]`,
and `str.lower()` lowercases ASCII letters only.

External linguistic capabilities (nltk tokenizer, POS tagger,
lemmatizer, stemmer) and the stopword list are parameters of the
model (`Env`, `stop`): the pipeline treats them as black boxes.
-/

namespace CleanText

/-- ASCII word character, Python `\w` on byte strings: `[a-zA-Z0-9_]`. -/
def isWordChar (c : Char) : Bool :=
  c.isAlpha || c.isDigit || c == '_'

/-- Python `\s` on byte strings: space, tab, newline, carriage return,
vertical tab, form feed. -/
def isPySpace (c : Char) : Bool :=
  c == ' ' || c == '\t' || c == '\n' || c == '\r' || c == '\x0b' || c == '\x0c'

/-- `re.sub(r'[\W\d]', '', s).lower()` (source lines 171/182/201):
delete every character that is not a word character or that is a digit
(keeping `[a-zA-Z_]`), then ASCII-lowercase. -/
def cleanToken (s : String) : String :=
  ⟨(s.data.filter fun c => c.isAlpha || c == '_').map Char.toLower⟩

/-- `re.search(r'[\W]', s)` succeeds (source line 177/187): the string
contains at least one non-word character. -/
def hasNonWord (s : String) : Bool :=
  s.data.any fun c => !isWordChar c

/-! ## URL removal (`f_remove_urls`, source lines 141-146)

`re.sub('https?://[^\b\s<]+', '', text)`.  Inside a character class,
Python's `\b` is the backspace character `\x08`, so the run after the
scheme stops at whitespace, `<`, or backspace.  The claimed reading
("up to the next whitespace or `<`") is modelled separately via the
terminator parameter. -/

/-- Terminator class of the code's regex: `[\b\s<]` — whitespace, `<`,
or the backspace character. -/
def urlTermChar (c : Char) : Bool :=
  isPySpace c || c == '<' || c == '\x08'

/-- Terminator class as the claim words it: whitespace or `<` only. -/
def urlTermCharSpec (c : Char) : Bool :=
  isPySpace c || c == '<'

/-- Match the scheme literal `https?://` at the head of the character
list (greedy `s?`: try `https://` first), returning the remainder. -/
def stripScheme (l : List Char) : Option (List Char) :=
  if l.take 8 = "https://".data then some (l.drop 8)
  else if l.take 7 = "http://".data then some (l.drop 7)
  else none

/-- Match the full regex `https?://[^term]+` at the head of the list:
scheme literal followed by a nonempty maximal run of non-terminator
characters.  Returns the remainder after the match. -/
def urlMatch (term : Char → Bool) (l : List Char) : Option (List Char) :=
  match stripScheme l with
  | none => none
  | some rest =>
    if rest.takeWhile (fun c => !term c) = [] then none
    else some (rest.dropWhile fun c => !term c)

/-- The scan of `re.sub` with empty replacement: at each position, if
the pattern matches, delete the match and continue after it; otherwise
keep the character and move one position right. -/
def removeUrlsAux (term : Char → Bool) : List Char → List Char
  | [] => []
  | c :: cs =>
    match h : urlMatch term (c :: cs) with
    | some rest => removeUrlsAux term rest
    | none => c :: removeUrlsAux term cs
termination_by l => l.length
decreasing_by
  · -- a match consumes at least the seven characters of the scheme literal
    have hlen : rest.length + 7 ≤ (c :: cs).length := by
      unfold urlMatch at h
      cases hs : stripScheme (c :: cs) with
      | none => simp [hs] at h
      | some mid =>
        simp only [hs] at h
        by_cases hc : mid.takeWhile (fun x => !term x) = []
        · simp [hc] at h
        · rw [if_neg hc] at h
          injection h with h
          subst h
          have h1 : (mid.dropWhile fun x => !term x).length ≤ mid.length :=
            (List.dropWhile_suffix _).length_le
          have h2 : mid.length + 7 ≤ (c :: cs).length := by
            unfold stripScheme at hs
            split at hs
            · next h8 =>
              have := congrArg List.length h8
              simp [List.length_take] at this
              cases hs
              simp [List.length_drop]
              omega
            · split at hs
              · next h7 =>
                have := congrArg List.length h7
                simp [List.length_take] at this
                cases hs
                simp [List.length_drop]
                omega
              · cases hs
          omega
    simp at hlen ⊢
    omega
  · simp

/-- `CleanText.f_remove_urls` (source lines 141-146):
`re.sub('https?://[^\b\s<]+', '', text)`. -/
def f_remove_urls (s : String) : String :=
  ⟨removeUrlsAux urlTermChar s.data⟩

/-- URL removal as the claim words it: the run after the scheme extends
up to the next whitespace or `<` character (backspace not a terminator). -/
def spec_remove_urls (s : String) : String :=
  ⟨removeUrlsAux urlTermCharSpec s.data⟩

/-- Some substring (suffix position) of `l` matches `https?://[^term]+`. -/
def hasURLSub (term : Char → Bool) (l : List Char) : Bool :=
  l.tails.any fun t => (urlMatch term t).isSome

/-! ## Tokenization and joining primitives -/

/-! `re.split('\W+', s)` (source line 195): split on maximal runs of
non-word characters; a leading or trailing run contributes an empty
string, and `re.split('\W+', "")` is `[""]`.  `splitNWAux acc l`
accumulates the current token (reversed) in `acc`; `splitNWSep l` skips
the remainder of a separator run. -/

mutual

def splitNWAux (acc : List Char) : List Char → List (List Char)
  | [] => [acc.reverse]
  | c :: cs =>
    if isWordChar c then splitNWAux (c :: acc) cs
    else acc.reverse :: splitNWSep cs

def splitNWSep : List Char → List (List Char)
  | [] => [[]]
  | c :: cs => if isWordChar c then splitNWAux [c] cs else splitNWSep cs

end

def splitNW (s : String) : List String :=
  (splitNWAux [] s.data).map fun l => ⟨l⟩

/-- Python `str.split()` with no argument (source line 197): split on
whitespace runs, discarding empty pieces entirely. -/
def splitWSAux : List Char → List Char → List (List Char)
  | acc, [] => if acc.isEmpty then [] else [acc.reverse]
  | acc, c :: cs =>
    if isPySpace c then
      if acc.isEmpty then splitWSAux [] cs else acc.reverse :: splitWSAux [] cs
    else splitWSAux (c :: acc) cs

def splitWS (s : String) : List String :=
  (splitWSAux [] s.data).map fun l => ⟨l⟩

/-- `' '.join(l)` for a list of strings (source lines 269/271). -/
def joinSp (l : List String) : String :=
  ⟨List.intercalate [' '] (l.map String.data)⟩

/-- `' '.join(s)` applied to a string joins its characters with spaces
(Python iterates a string character by character). -/
def joinSpChars (s : String) : String :=
  ⟨List.intercalate [' '] (s.data.map fun c => [c])⟩

/-- Python `s.split(' ')`: split on every single space, keeping empty
pieces (`"".split(' ') = ['']`).  Used to state the round-trip claim. -/
def splitSpAux : List Char → List Char → List (List Char)
  | acc, [] => [acc.reverse]
  | acc, c :: cs =>
    if c == ' ' then acc.reverse :: splitSpAux [] cs
    else splitSpAux (c :: acc) cs

def splitSp (s : String) : List String :=
  (splitSpAux [] s.data).map fun l => ⟨l⟩

/-! ## Data model

A record is a mapping from field names to values; a field holds a raw
string, a token list, or (for `pos_tuple`) a list of `(token, tag)`
pairs.  The configuration mirrors the command's options (source lines
48-99); the `Env` packages the external linguistic capabilities. -/

inductive FieldVal where
  | str : String → FieldVal
  | strs : List String → FieldVal
  | pairs : List (String × String) → FieldVal
deriving DecidableEq

abbrev Record := String → Option FieldVal

/-- The command's options (source lines 48-99).  `base_type` and
`pos_tagset` are plain strings: the source attaches no validator to
them. -/
structure Config where
  textfield : String
  default_clean : Bool
  remove_urls : Bool
  remove_stopwords : Bool
  base_word : Bool
  base_type : String
  mv : Bool
  force_nltk_tokenize : Bool
  pos_tagset : Option String

/-- External linguistic capabilities: `word_tokenize`, `pos_tag` (with
its tagset argument), `WordNetLemmatizer.lemmatize` with and without a
part-of-speech hint, and `PorterStemmer.stem`. -/
structure Env where
  tokenize : String → List String
  posTag : List String → Option String → List (String × String)
  lemmatizePos : String → String → String
  lemmatize : String → String
  stem : String → String

/-- `record[k] = v`. -/
def updRec (r : Record) (k : String) (v : FieldVal) : Record :=
  fun q => if q = k then some v else r q

def getStr : Option FieldVal → String
  | some (.str s) => s
  | _ => ""

def getStrs : Option FieldVal → List String
  | some (.strs l) => l
  | _ => []

def getPairs : Option FieldVal → List (String × String)
  | some (.pairs l) => l
  | _ => []

/-! ## Pipeline stages

One definition per commented block of `CleanText.stream` (source lines
151-275), composed in source order by `processRecord`.  Each stage
reads and writes the record exactly as the corresponding Python block
does. -/

/-- `#https://stackoverflow.com/a/15590384` helper (source lines
129-139): map a treebank tag to a wordnet part-of-speech constant
(`wordnet.ADJ/VERB/NOUN/ADV` are `"a"/"v"/"n"/"r"`), defaulting to
`'n'`. -/
def get_wordnet_pos (t : String) : String :=
  if t.startsWith "J" then "a"
  else if t.startsWith "V" then "v"
  else if t.startsWith "N" then "n"
  else if t.startsWith "R" then "r"
  else "n"

/-- Inline filter of the tagged pairs when `default_clean` and
`remove_stopwords` both hold (source lines 169-178): keep a pair when
its cleaned, lowercased token is not a stopword and the original token
has no non-word character; the kept token is the cleaned one. -/
def posFilterRS (stop : List String) (pt : List (String × String)) :
    List (String × String) :=
  (pt.filter fun p => !stop.contains (cleanToken p.1) && !hasNonWord p.1).map
    fun p => (cleanToken p.1, p.2)

/-- Inline filter when `default_clean` holds but `remove_stopwords`
does not (source lines 180-188): same cleaning and non-word-character
drop, without the stopword test. -/
def posFilterNC (pt : List (String × String)) : List (String × String) :=
  (pt.filter fun p => !hasNonWord p.1).map fun p => (cleanToken p.1, p.2)

/-- The loop of the lemma-with-POS stage (source lines 212-220): each
pair is lemmatized with its wordnet part-of-speech hint; a pair is kept
exactly when the lemma is nonempty (Python string truthiness). -/
def keptPairs (env : Env) (pt : List (String × String)) :
    List (String × String) :=
  pt.filterMap fun p =>
    let k := env.lemmatizePos p.1 (get_wordnet_pos p.2)
    if k = "" then none else some (k, p.2)

/-- URL removal (source lines 152-156). -/
def urlStage (cfg : Config) (r : Record) : Record :=
  if cfg.remove_urls then
    updRec r cfg.textfield (.str (f_remove_urls (getStr (r cfg.textfield))))
  else r

/-- Tokenization (source lines 157-197), including the inline
cleaning/stopword filtering of the lemma-with-POS branch. -/
def tokenStage (cfg : Config) (env : Env) (stop : List String) (r : Record) :
    Record :=
  if (cfg.base_word && cfg.base_type == "lemma_pos") || cfg.force_nltk_tokenize then
    if cfg.base_word && cfg.base_type == "lemma_pos" then
      let r1 := updRec r "pos_tuple"
        (.pairs (env.posTag (env.tokenize (getStr (r cfg.textfield))) cfg.pos_tagset))
      if cfg.default_clean && cfg.remove_stopwords then
        updRec r1 "pos_tuple" (.pairs (posFilterRS stop (getPairs (r1 "pos_tuple"))))
      else if cfg.default_clean && !cfg.remove_stopwords then
        updRec r1 "pos_tuple" (.pairs (posFilterNC (getPairs (r1 "pos_tuple"))))
      else r1
    else
      -- `elif self.force_nltk_tokenize`, necessarily true under the outer test
      updRec r cfg.textfield (.strs (env.tokenize (getStr (r cfg.textfield))))
  else if cfg.default_clean || (cfg.base_word && cfg.base_type == "lemma") then
    updRec r cfg.textfield (.strs (splitNW (getStr (r cfg.textfield))))
  else
    updRec r cfg.textfield (.strs (splitWS (getStr (r cfg.textfield))))

/-- Default cleaning (source lines 199-204): note the condition tests
only `base_type`, not `base_word`. -/
def cleanStage (cfg : Config) (r : Record) : Record :=
  if cfg.default_clean && !(cfg.base_type == "lemma_pos") then
    updRec r cfg.textfield (.strs ((getStrs (r cfg.textfield)).map cleanToken))
  else r

/-- Lemmatization with POS tagging (source lines 206-222).  The text
field and `pos_tag` are rebuilt from the kept pairs; `pos_tuple` is
reassigned only inside the loop's `if keep_text:` body, so it keeps its
stage-1 value when no pair is kept. -/
def lemmaPosStage (cfg : Config) (env : Env) (r : Record) : Record :=
  if cfg.base_word && cfg.base_type == "lemma_pos" then
    let kept := keptPairs env (getPairs (r "pos_tuple"))
    let r1 := updRec r cfg.textfield (.strs (kept.map Prod.fst))
    let r2 := updRec r1 "pos_tag" (.strs (kept.map Prod.snd))
    if kept.isEmpty then r2 else updRec r2 "pos_tuple" (.pairs kept)
  else r

/-- Lemmatization or stemming with stopword removal (source lines
224-241): tokens are filtered against the stopword set before being
lemmatized or stemmed. -/
def baseRSStage (cfg : Config) (env : Env) (stop : List String) (r : Record) :
    Record :=
  if cfg.remove_stopwords && cfg.base_word && !(cfg.base_type == "lemma_pos") then
    let r1 :=
      if cfg.base_type == "lemma" then
        updRec r cfg.textfield
          (.strs (((getStrs (r cfg.textfield)).filter fun t => !stop.contains t).map
            env.lemmatize))
      else r
    if cfg.base_type == "stem" then
      updRec r1 cfg.textfield
        (.strs (((getStrs (r1 cfg.textfield)).filter fun t => !stop.contains t).map
          env.stem))
    else r1
  else r

/-- Lemmatization or stemming without stopword removal (source lines
243-257). -/
def baseNoRSStage (cfg : Config) (env : Env) (r : Record) : Record :=
  if !cfg.remove_stopwords && cfg.base_word then
    let r1 :=
      if cfg.base_type == "lemma" then
        updRec r cfg.textfield (.strs ((getStrs (r cfg.textfield)).map env.lemmatize))
      else r
    if cfg.base_type == "stem" then
      updRec r1 cfg.textfield (.strs ((getStrs (r1 cfg.textfield)).map env.stem))
    else r1
  else r

/-- Stopword removal without base-word reduction (source lines
259-266). -/
def stopOnlyStage (cfg : Config) (stop : List String) (r : Record) : Record :=
  if cfg.remove_stopwords && !cfg.base_word then
    updRec r cfg.textfield
      (.strs ((getStrs (r cfg.textfield)).filter fun t => !stop.contains t))
  else r

/-- Final multi-value output (source lines 268-273).  The text field
(always a token list at this point) is joined with spaces; the
`pos_tag` join is wrapped in `try/except: pass`, so an absent field
(KeyError) or a non-joinable value (TypeError) is left untouched, while
a string value is joined character by character. -/
def mvStage (cfg : Config) (r : Record) : Record :=
  if !cfg.mv then
    let r1 :=
      match r cfg.textfield with
      | some (.strs l) => updRec r cfg.textfield (.str (joinSp l))
      | some (.str s) => updRec r cfg.textfield (.str (joinSpChars s))
      | _ => r
    match r1 "pos_tag" with
    | some (.strs l) => updRec r1 "pos_tag" (.str (joinSp l))
    | some (.str s) => updRec r1 "pos_tag" (.str (joinSpChars s))
    | _ => r1
  else r

/-- The per-record body of `CleanText.stream` (source lines 151-275):
the stages composed in source order. -/
def processRecord (cfg : Config) (env : Env) (stop : List String) (r : Record) :
    Record :=
  mvStage cfg
    (stopOnlyStage cfg stop
      (baseNoRSStage cfg env
        (baseRSStage cfg env stop
          (lemmaPosStage cfg env
            (cleanStage cfg
              (tokenStage cfg env stop
                (urlStage cfg r)))))))

/-- `CleanText.stream` over a finite record sequence: one output record
per input record, in order. -/
def streamRecords (cfg : Config) (env : Env) (stop : List String)
    (l : List Record) : List Record :=
  l.map (processRecord cfg env stop)

/-! ## Concrete instances used to evaluate the model -/

/-- A simple concrete environment: whitespace tokenizer, a tagger that
tags every token `"NN"`, identity lemmatizers/stemmer. -/
def idEnv : Env :=
  { tokenize := splitWS
    posTag := fun ts _ => ts.map fun t => (t, "NN")
    lemmatizePos := fun t _ => t
    lemmatize := fun t => t
    stem := fun t => t }

/-- A one-field record. -/
def mkRec (field : String) (text : String) : Record :=
  fun q => if q = field then some (.str text) else none

/-- A token containing no space character. -/
def spaceFree (s : String) : Bool :=
  s.data.all fun c => !(c == ' ')

/-- The external capabilities produce space-free tokens: the tokenizer
never emits a token containing a space, and the lemmatizers/stemmer
preserve space-freeness.  (True of the nltk word tokenizer, the WordNet
lemmatizer and the Porter stemmer.) -/
def envSpaceFree (env : Env) : Prop :=
  (∀ s t, t ∈ env.tokenize s → spaceFree t = true)
  ∧ (∀ t p, spaceFree t = true → spaceFree (env.lemmatizePos t p) = true)
  ∧ (∀ t, spaceFree t = true → spaceFree (env.lemmatize t) = true)
  ∧ (∀ t, spaceFree t = true → spaceFree (env.stem t) = true)

/-! ## Concrete configurations used in closed evaluations

All use `textfield := "text"`, no URL removal, no forced tokenizer and
no tagset unless stated. -/

/-- lemma-with-POS, default cleaning and stopword removal on. -/
def cfgPosRS : Config :=
  { textfield := "text", default_clean := true, remove_urls := false,
    remove_stopwords := true, base_word := true, base_type := "lemma_pos",
    mv := true, force_nltk_tokenize := false, pos_tagset := none }

/-- lemma-with-POS, default cleaning on, stopword removal off. -/
def cfgPosNC : Config := { cfgPosRS with remove_stopwords := false }

/-- lemma-with-POS with default cleaning off (stopword removal on). -/
def cfgPosNoClean : Config := { cfgPosRS with default_clean := false }

/-- `base_type = "lemma_pos"` but base-word reduction disabled. -/
def cfgFlatPos : Config :=
  { cfgPosRS with base_word := false, remove_stopwords := false }

/-- Stopword-only path: no base-word reduction. -/
def cfgStopOnly : Config :=
  { textfield := "text", default_clean := true, remove_urls := false,
    remove_stopwords := true, base_word := false, base_type := "lemma",
    mv := true, force_nltk_tokenize := false, pos_tagset := none }

/-- Stopword-only path with joined (non-multivalue) output. -/
def cfgStopJoin : Config := { cfgStopOnly with mv := false }

/-- Plain lemma mode with stopword removal. -/
def cfgLemmaRS : Config := { cfgStopOnly with base_word := true }

/-- Base-word reduction enabled with an unrecognized `base_type`. -/
def cfgOddBase : Config := { cfgLemmaRS with base_type := "frobnicate" }

/-! ## Derived descriptions of intermediate pipeline values

These definitions name the value of the text field (resp. `pos_tuple`)
after the early stages, for use in theorem statements; the theorems
below prove that the staged record computation produces them. -/

/-- The text after stage 0. -/
def urlText (cfg : Config) (s : String) : String :=
  if cfg.remove_urls then f_remove_urls s else s

/-- The token list produced by stage 1 when the lemma-with-POS branch
does not fire. -/
def flatTokens (cfg : Config) (env : Env) (t : String) : List String :=
  if cfg.force_nltk_tokenize then env.tokenize t
  else if cfg.default_clean || (cfg.base_word && cfg.base_type == "lemma") then splitNW t
  else splitWS t

/-- The token list after stages 0-2 when the lemma-with-POS branch does
not fire. -/
def stage2Tokens (cfg : Config) (env : Env) (s : String) : List String :=
  let toks := flatTokens cfg env (urlText cfg s)
  if cfg.default_clean && !(cfg.base_type == "lemma_pos") then toks.map cleanToken
  else toks

/-- The raw tagged pairs produced at the start of the lemma-with-POS
branch (source lines 161-166). -/
def taggedPairs (cfg : Config) (env : Env) (s : String) : List (String × String) :=
  env.posTag (env.tokenize (urlText cfg s)) cfg.pos_tagset

/-- The inline filtering applied to the tagged pairs (source lines
167-188): active only when `default_clean` is set. -/
def inlineFiltered (cfg : Config) (stop : List String)
    (pt : List (String × String)) : List (String × String) :=
  if cfg.default_clean && cfg.remove_stopwords then posFilterRS stop pt
  else if cfg.default_clean && !cfg.remove_stopwords then posFilterNC pt
  else pt

/-- The `pos_tuple` value at the end of stage 1 in the lemma-with-POS
branch (source lines 160-188): the tagged pairs, inline-filtered only
when `default_clean` is set. -/
def pairsAfterInline (cfg : Config) (env : Env) (stop : List String) (s : String) :
    List (String × String) :=
  inlineFiltered cfg stop (taggedPairs cfg env s)

/-- The token-list effect of the stage at source lines 224-241
(lemmatize/stem with stopword removal). -/
def rsReduceStage (cfg : Config) (env : Env) (stop : List String)
    (toks : List String) : List String :=
  if cfg.remove_stopwords && cfg.base_word && !(cfg.base_type == "lemma_pos") then
    if cfg.base_type == "lemma" then
      (toks.filter fun t => !stop.contains t).map env.lemmatize
    else if cfg.base_type == "stem" then
      (toks.filter fun t => !stop.contains t).map env.stem
    else toks
  else toks

/-- The token-list effect of the stage at source lines 243-257
(lemmatize/stem without stopword removal). -/
def noRSReduceStage (cfg : Config) (env : Env) (toks : List String) : List String :=
  if !cfg.remove_stopwords && cfg.base_word then
    if cfg.base_type == "lemma" then toks.map env.lemmatize
    else if cfg.base_type == "stem" then toks.map env.stem
    else toks
  else toks

/-- The token-list effect of the stage at source lines 259-266
(stopword-only filtering). -/
def stopFilterStage (cfg : Config) (stop : List String) (toks : List String) :
    List String :=
  if cfg.remove_stopwords && !cfg.base_word then toks.filter fun t => !stop.contains t
  else toks

/-- The combined effect of stages 3 and 4 (source lines 224-266) on a
token list, mirroring the sequential conditional blocks of the source. -/
def reducedTokens (cfg : Config) (env : Env) (stop : List String)
    (toks : List String) : List String :=
  stopFilterStage cfg stop (noRSReduceStage cfg env (rsReduceStage cfg env stop toks))

/-- Stage 5 shaping of the text field: a token list in multivalue mode,
a space-joined string otherwise. -/
def shapedVal (cfg : Config) (toks : List String) : FieldVal :=
  if cfg.mv then .strs toks else .str (joinSp toks)

/-- The inline filter exactly as claim C1 words it: drop any pair whose
token — after deletion of non-word and digit characters and
lowercasing — is the empty string, contains a remaining non-word
character, or (when stopword removal is on) matches a stopword; keep
remaining pairs with the token cleaned and lowercased. -/
def specInlineFilter (rs : Bool) (stop : List String) (pt : List (String × String)) :
    List (String × String) :=
  (pt.map fun p => (cleanToken p.1, p.2)).filter fun p =>
    !(p.1 == "") && !hasNonWord p.1 && !(rs && stop.contains p.1)

/-! ## Option validation (claim C9)

Modelled from the spec: the option-parsing front end (the host
framework's `dispatch`, outside this repository's source) runs each
declared validator before any record is processed, and a validator
failure is fatal to the run.  Which options carry which validator is
taken from the source (lines 48-99): the six boolean options carry
`validators.Boolean()`, `textfield` carries `validators.Fieldname()`
and is required, and `base_type` and `pos_tagset` are declared with no
validator at all. -/

inductive OptValidator where
  | fieldname : OptValidator
  | boolean : OptValidator
  | noneDeclared : OptValidator
deriving DecidableEq

/-- The validator attached to each option in the source (lines 48-99). -/
def declaredValidator (opt : String) : OptValidator :=
  if opt = "textfield" then .fieldname
  else if opt = "base_type" then .noneDeclared
  else if opt = "pos_tagset" then .noneDeclared
  else .boolean

/-- The raw (string-valued) option assignment of a run. -/
structure RawOptions where
  textfield : String
  default_clean : String
  remove_urls : String
  remove_stopwords : String
  base_word : String
  base_type : String
  mv : String
  force_nltk_tokenize : String
  pos_tagset : String

/-- Modelled from the spec: a boolean validator accepts the usual
truthy/falsy spellings. -/
def acceptsBoolean (v : String) : Bool :=
  ["true", "false", "t", "f", "1", "0", "y", "n", "yes", "no"].contains v

/-- Modelled from the spec: a fieldname validator accepts a nonempty
field name. -/
def acceptsFieldname (v : String) : Bool :=
  !(v == "")

def acceptsValue : OptValidator → String → Bool
  | .fieldname, v => acceptsFieldname v
  | .boolean, v => acceptsBoolean v
  | .noneDeclared, _ => true

/-- Pre-record validation of a run's options: every option value must
pass its declared validator. -/
def validateRaw (o : RawOptions) : Bool :=
  acceptsValue (declaredValidator "textfield") o.textfield &&
  acceptsValue (declaredValidator "default_clean") o.default_clean &&
  acceptsValue (declaredValidator "remove_urls") o.remove_urls &&
  acceptsValue (declaredValidator "remove_stopwords") o.remove_stopwords &&
  acceptsValue (declaredValidator "base_word") o.base_word &&
  acceptsValue (declaredValidator "base_type") o.base_type &&
  acceptsValue (declaredValidator "mv") o.mv &&
  acceptsValue (declaredValidator "force_nltk_tokenize") o.force_nltk_tokenize &&
  acceptsValue (declaredValidator "pos_tagset") o.pos_tagset

/-! # Theorems

First, record-level helper lemmas characterizing each stage, then the
claim theorems. -/

theorem updRec_self (r : Record) (k : String) (v : FieldVal) :
    updRec r k v k = some v := by
  simp [updRec]

theorem updRec_ne (r : Record) {q k : String} (v : FieldVal) (h : q ≠ k) :
    updRec r k v q = r q := by
  simp [updRec, h]

theorem urlStage_textfield (cfg : Config) (r : Record) (s : String)
    (hr : r cfg.textfield = some (.str s)) :
    urlStage cfg r cfg.textfield = some (.str (urlText cfg s)) := by
  unfold urlStage urlText
  by_cases h : cfg.remove_urls <;> simp [h, updRec, hr, getStr]

theorem urlStage_frame (cfg : Config) (r : Record) {q : String}
    (h : q ≠ cfg.textfield) : urlStage cfg r q = r q := by
  unfold urlStage
  by_cases hu : cfg.remove_urls <;> simp [hu, updRec, h]

theorem tokenStage_textfield_flat (cfg : Config) (env : Env) (stop : List String)
    (r : Record) (t : String)
    (hb : (cfg.base_word && cfg.base_type == "lemma_pos") = false)
    (hr : r cfg.textfield = some (.str t)) :
    tokenStage cfg env stop r cfg.textfield = some (.strs (flatTokens cfg env t)) := by
  unfold tokenStage flatTokens
  rw [hb]
  by_cases hf : cfg.force_nltk_tokenize
  · simp [hf, hb, updRec, hr, getStr]
  · by_cases hd : (cfg.default_clean || (cfg.base_word && cfg.base_type == "lemma")) = true
    · simp [hf, hd, updRec, hr, getStr]
    · simp only [Bool.not_eq_true] at hd
      simp [hf, hd, updRec, hr, getStr]

theorem tokenStage_flat_frame (cfg : Config) (env : Env) (stop : List String)
    (r : Record) {q : String}
    (hb : (cfg.base_word && cfg.base_type == "lemma_pos") = false)
    (h : q ≠ cfg.textfield) : tokenStage cfg env stop r q = r q := by
  unfold tokenStage
  rw [hb]
  by_cases hf : cfg.force_nltk_tokenize
  · simp [hf, hb, updRec, h]
  · by_cases hd : (cfg.default_clean || (cfg.base_word && cfg.base_type == "lemma")) = true
    · simp [hf, hd, updRec, h]
    · simp only [Bool.not_eq_true] at hd
      simp [hf, hd, updRec, h]

theorem tokenStage_1a_posTuple (cfg : Config) (env : Env) (stop : List String)
    (r : Record) (t : String)
    (hb : (cfg.base_word && cfg.base_type == "lemma_pos") = true)
    (htf : cfg.textfield ≠ "pos_tuple")
    (hr : r cfg.textfield = some (.str t)) :
    tokenStage cfg env stop r "pos_tuple"
      = some (.pairs (inlineFiltered cfg stop
          (env.posTag (env.tokenize t) cfg.pos_tagset))) := by
  unfold tokenStage inlineFiltered
  rw [hb]
  by_cases h1 : (cfg.default_clean && cfg.remove_stopwords) = true
  · simp [hb, h1, updRec, hr, getStr, getPairs]
  · by_cases h2 : (cfg.default_clean && !cfg.remove_stopwords) = true
    · simp [hb, h1, h2, updRec, hr, getStr, getPairs]
    · simp [hb, h1, h2, updRec, hr, getStr, getPairs]

theorem tokenStage_1a_other (cfg : Config) (env : Env) (stop : List String)
    (r : Record) {q : String}
    (hb : (cfg.base_word && cfg.base_type == "lemma_pos") = true)
    (h : q ≠ "pos_tuple") : tokenStage cfg env stop r q = r q := by
  unfold tokenStage
  rw [hb]
  by_cases h1 : (cfg.default_clean && cfg.remove_stopwords) = true
  · simp [hb, h1, updRec, h]
  · by_cases h2 : (cfg.default_clean && !cfg.remove_stopwords) = true
    · simp [hb, h1, h2, updRec, h]
    · simp [hb, h1, h2, updRec, h]

theorem cleanStage_textfield (cfg : Config) (r : Record) (toks : List String)
    (hr : r cfg.textfield = some (.strs toks)) :
    cleanStage cfg r cfg.textfield
      = some (.strs (if cfg.default_clean && !(cfg.base_type == "lemma_pos") then
          toks.map cleanToken else toks)) := by
  unfold cleanStage
  by_cases hc : (cfg.default_clean && !(cfg.base_type == "lemma_pos")) = true
  · simp [hc, updRec, hr, getStrs]
  · simp only [Bool.not_eq_true] at hc
    simp [hc, updRec, hr]

theorem cleanStage_frame (cfg : Config) (r : Record) {q : String}
    (h : q ≠ cfg.textfield) : cleanStage cfg r q = r q := by
  unfold cleanStage
  by_cases hc : (cfg.default_clean && !(cfg.base_type == "lemma_pos")) = true
  · simp [hc, updRec, h]
  · simp only [Bool.not_eq_true] at hc
    simp [hc, updRec, h]

theorem lemmaPosStage_skip (cfg : Config) (env : Env) (r : Record)
    (hb : (cfg.base_word && cfg.base_type == "lemma_pos") = false) :
    lemmaPosStage cfg env r = r := by
  unfold lemmaPosStage
  simp [hb]

theorem lemmaPosStage_frame (cfg : Config) (env : Env) (r : Record) {q : String}
    (hq1 : q ≠ cfg.textfield) (hq2 : q ≠ "pos_tag") (hq3 : q ≠ "pos_tuple") :
    lemmaPosStage cfg env r q = r q := by
  unfold lemmaPosStage
  by_cases hb : (cfg.base_word && cfg.base_type == "lemma_pos") = true
  · by_cases hk : (keptPairs env (getPairs (r "pos_tuple"))).isEmpty = true <;>
      simp [hb, hk, updRec, hq1, hq2, hq3]
  · simp [hb]

theorem baseRSStage_textfield (cfg : Config) (env : Env) (stop : List String)
    (r : Record) (toks : List String)
    (hr : r cfg.textfield = some (.strs toks)) :
    baseRSStage cfg env stop r cfg.textfield
      = some (.strs (
          if cfg.remove_stopwords && cfg.base_word && !(cfg.base_type == "lemma_pos") then
            if cfg.base_type == "lemma" then
              (toks.filter fun t => !stop.contains t).map env.lemmatize
            else if cfg.base_type == "stem" then
              (toks.filter fun t => !stop.contains t).map env.stem
            else toks
          else toks)) := by
  unfold baseRSStage
  by_cases ho : (cfg.remove_stopwords && cfg.base_word && !(cfg.base_type == "lemma_pos")) = true
  · have ho' := ho
    simp only [Bool.and_eq_true] at ho'
    obtain ⟨⟨hrs, hbw⟩, _⟩ := ho'
    by_cases hl : (cfg.base_type == "lemma") = true
    · have hbt : cfg.base_type = "lemma" := by simpa using hl
      simp [ho, hrs, hbw, hbt, updRec, hr, getStrs]
    · by_cases hs : (cfg.base_type == "stem") = true
      · have hbt : cfg.base_type = "stem" := by simpa using hs
        simp [ho, hrs, hbw, hbt, updRec, hr, getStrs]
      · simp [ho, hrs, hbw, hl, hs, updRec, hr]
  · simp [ho, hr]

theorem baseRSStage_frame (cfg : Config) (env : Env) (stop : List String)
    (r : Record) {q : String} (h : q ≠ cfg.textfield) :
    baseRSStage cfg env stop r q = r q := by
  unfold baseRSStage
  by_cases ho : (cfg.remove_stopwords && cfg.base_word && !(cfg.base_type == "lemma_pos")) = true
  · by_cases hl : (cfg.base_type == "lemma") = true <;>
      by_cases hs : (cfg.base_type == "stem") = true <;>
      simp [ho, hl, hs, updRec, h]
  · simp [ho]

theorem baseNoRSStage_textfield (cfg : Config) (env : Env)
    (r : Record) (toks : List String)
    (hr : r cfg.textfield = some (.strs toks)) :
    baseNoRSStage cfg env r cfg.textfield
      = some (.strs (
          if !cfg.remove_stopwords && cfg.base_word then
            if cfg.base_type == "lemma" then toks.map env.lemmatize
            else if cfg.base_type == "stem" then toks.map env.stem
            else toks
          else toks)) := by
  unfold baseNoRSStage
  by_cases ho : (!cfg.remove_stopwords && cfg.base_word) = true
  · have ho' := ho
    simp only [Bool.and_eq_true, Bool.not_eq_true'] at ho'
    obtain ⟨hrs, hbw⟩ := ho'
    by_cases hl : (cfg.base_type == "lemma") = true
    · have hbt : cfg.base_type = "lemma" := by simpa using hl
      simp [ho, hrs, hbw, hbt, updRec, hr, getStrs]
    · by_cases hs : (cfg.base_type == "stem") = true
      · have hbt : cfg.base_type = "stem" := by simpa using hs
        simp [ho, hrs, hbw, hbt, updRec, hr, getStrs]
      · simp [ho, hrs, hbw, hl, hs, updRec, hr]
  · simp [ho, hr]

theorem baseNoRSStage_frame (cfg : Config) (env : Env)
    (r : Record) {q : String} (h : q ≠ cfg.textfield) :
    baseNoRSStage cfg env r q = r q := by
  unfold baseNoRSStage
  by_cases ho : (!cfg.remove_stopwords && cfg.base_word) = true
  · by_cases hl : (cfg.base_type == "lemma") = true <;>
      by_cases hs : (cfg.base_type == "stem") = true <;>
      simp [ho, hl, hs, updRec, h]
  · simp [ho]

theorem stopOnlyStage_textfield (cfg : Config) (stop : List String)
    (r : Record) (toks : List String)
    (hr : r cfg.textfield = some (.strs toks)) :
    stopOnlyStage cfg stop r cfg.textfield
      = some (.strs (
          if cfg.remove_stopwords && !cfg.base_word then
            toks.filter fun t => !stop.contains t
          else toks)) := by
  unfold stopOnlyStage
  by_cases ho : (cfg.remove_stopwords && !cfg.base_word) = true <;>
    simp [ho, updRec, hr, getStrs]

theorem stopOnlyStage_frame (cfg : Config) (stop : List String)
    (r : Record) {q : String} (h : q ≠ cfg.textfield) :
    stopOnlyStage cfg stop r q = r q := by
  unfold stopOnlyStage
  by_cases ho : (cfg.remove_stopwords && !cfg.base_word) = true <;>
    simp [ho, updRec, h]

theorem mvStage_id (cfg : Config) (r : Record) (hmv : cfg.mv = true) :
    mvStage cfg r = r := by
  unfold mvStage
  simp [hmv]

theorem mvStage_textfield (cfg : Config) (r : Record) (toks : List String)
    (htf : cfg.textfield ≠ "pos_tag")
    (hr : r cfg.textfield = some (.strs toks)) :
    mvStage cfg r cfg.textfield = some (shapedVal cfg toks) := by
  unfold mvStage shapedVal
  by_cases hmv : cfg.mv = true
  · simp [hmv, hr]
  · simp only [Bool.not_eq_true] at hmv
    simp only [hmv, Bool.not_false, if_true, if_false, hr]
    have hpt : (updRec r cfg.textfield (.str (joinSp toks))) "pos_tag" = r "pos_tag" :=
      updRec_ne _ _ (Ne.symm htf)
    rw [hpt]
    cases hx : r "pos_tag" with
    | none => simp [updRec]
    | some fv =>
      cases fv <;> simp [updRec, htf, Ne.symm htf]

theorem mvStage_frame (cfg : Config) (r : Record) {q : String}
    (hq1 : q ≠ cfg.textfield) (hq2 : q ≠ "pos_tag") :
    mvStage cfg r q = r q := by
  unfold mvStage
  by_cases hmv : cfg.mv = true
  · simp [hmv]
  · simp only [Bool.not_eq_true] at hmv
    simp only [hmv, Bool.not_false, if_true]
    cases hx : r cfg.textfield with
    | none =>
      simp only [hx]
      cases hy : r "pos_tag" with
      | none => simp [hy]
      | some fv => cases fv <;> simp [hy, updRec, hq2]
    | some fv =>
      cases fv with
      | str s =>
        simp only [hx]
        cases hy : (updRec r cfg.textfield (FieldVal.str (joinSpChars s))) "pos_tag" with
        | none => simp [hy, updRec, hq1]
        | some fv2 => cases fv2 <;> simp [hy, updRec, hq1, hq2]
      | strs l =>
        simp only [hx]
        cases hy : (updRec r cfg.textfield (FieldVal.str (joinSp l))) "pos_tag" with
        | none => simp [hy, updRec, hq1]
        | some fv2 => cases fv2 <;> simp [hy, updRec, hq1, hq2]
      | pairs p =>
        simp only [hx]
        cases hy : r "pos_tag" with
        | none => simp [hy]
        | some fv2 => cases fv2 <;> simp [hy, updRec, hq2]

theorem processRecord_flat (cfg : Config) (env : Env) (stop : List String)
    (r : Record) (s : String)
    (hb : (cfg.base_word && cfg.base_type == "lemma_pos") = false)
    (htf : cfg.textfield ≠ "pos_tag")
    (hr : r cfg.textfield = some (.str s)) :
    processRecord cfg env stop r cfg.textfield
      = some (shapedVal cfg (reducedTokens cfg env stop (stage2Tokens cfg env s))) := by
  have h0 := urlStage_textfield cfg r s hr
  have h1 := tokenStage_textfield_flat cfg env stop (urlStage cfg r) (urlText cfg s) hb h0
  have h2 := cleanStage_textfield cfg (tokenStage cfg env stop (urlStage cfg r))
    (flatTokens cfg env (urlText cfg s)) h1
  rw [show (if cfg.default_clean && !(cfg.base_type == "lemma_pos") then
        (flatTokens cfg env (urlText cfg s)).map cleanToken
      else flatTokens cfg env (urlText cfg s)) = stage2Tokens cfg env s from rfl] at h2
  unfold processRecord
  rw [lemmaPosStage_skip cfg env _ hb]
  have h3 := baseRSStage_textfield cfg env stop _ _ h2
  have h4 := baseNoRSStage_textfield cfg env
    (baseRSStage cfg env stop (cleanStage cfg (tokenStage cfg env stop (urlStage cfg r)))) _ h3
  have h5 := stopOnlyStage_textfield cfg stop
    (baseNoRSStage cfg env (baseRSStage cfg env stop
      (cleanStage cfg (tokenStage cfg env stop (urlStage cfg r))))) _ h4
  have h6 := mvStage_textfield cfg
    (stopOnlyStage cfg stop (baseNoRSStage cfg env (baseRSStage cfg env stop
      (cleanStage cfg (tokenStage cfg env stop (urlStage cfg r)))))) _ htf h5
  rw [h6]
  rfl

/-! ## Claim C1 — inline cleaning/filtering of the lemma-with-POS branch -/

/-- Claim C1 as stated is false: the inline filter it describes (drop a
pair whose cleaned token is empty, has a remaining non-word character,
or is a stopword) differs from the code on the pair `("123", "NN")` —
the code keeps it as `("", "NN")` because the non-word test runs on the
original token and an empty cleaned token is not a stopword — and with
`default_clean` off the code does not filter at all, keeping the
stopword pair `("the", "NN")` the claim would drop. -/
theorem c1_counterexample :
    tokenStage cfgPosRS idEnv ["the"] (mkRec "text" "123") "pos_tuple"
      = some (.pairs [("", "NN")])
    ∧ specInlineFilter true ["the"] [("123", "NN")] = []
    ∧ some (FieldVal.pairs [("", "NN")])
        ≠ some (.pairs (specInlineFilter true ["the"] [("123", "NN")]))
    ∧ tokenStage cfgPosNoClean idEnv ["the"] (mkRec "text" "the") "pos_tuple"
      = some (.pairs [("the", "NN")])
    ∧ specInlineFilter true ["the"] [("the", "NN")] = [] := by
  refine ⟨by decide, by decide, by decide, by decide, by decide⟩

/-- C1 (amended): in the part-of-speech-aware branch the tagged pairs
are filtered inline only when `default_clean` is enabled; with
`remove_stopwords` also on, a pair is dropped when its original token
contains a non-word character or its cleaned lowercased token is a
stopword (kept pairs carry the cleaned token, which may be empty); with
`remove_stopwords` off the same rule applies minus the stopword test;
with `default_clean` off the pairs pass through unfiltered. -/
theorem c1_inline_filtering (cfg : Config) (env : Env) (stop : List String)
    (r : Record) (s : String)
    (hb : (cfg.base_word && cfg.base_type == "lemma_pos") = true)
    (htf : cfg.textfield ≠ "pos_tuple")
    (hr : r cfg.textfield = some (.str s)) :
    tokenStage cfg env stop (urlStage cfg r) "pos_tuple"
      = some (.pairs (pairsAfterInline cfg env stop s))
    ∧ (cfg.default_clean = false →
        pairsAfterInline cfg env stop s = taggedPairs cfg env s)
    ∧ (cfg.default_clean = true → cfg.remove_stopwords = true →
        pairsAfterInline cfg env stop s = posFilterRS stop (taggedPairs cfg env s))
    ∧ (cfg.default_clean = true → cfg.remove_stopwords = false →
        pairsAfterInline cfg env stop s = posFilterNC (taggedPairs cfg env s)) := by
  refine ⟨?_, ?_, ?_, ?_⟩
  · have h0 := urlStage_textfield cfg r s hr
    have h1 := tokenStage_1a_posTuple cfg env stop (urlStage cfg r) (urlText cfg s) hb htf h0
    rw [h1]
    rfl
  · intro hdc
    unfold pairsAfterInline inlineFiltered
    simp [hdc]
  · intro hdc hrs
    unfold pairsAfterInline inlineFiltered
    simp [hdc, hrs]
  · intro hdc hrs
    unfold pairsAfterInline inlineFiltered
    simp [hdc, hrs]

theorem c1_inline_filtering_witness :
    tokenStage cfgPosRS idEnv ["the"] (urlStage cfgPosRS (mkRec "text" "a dog"))
        "pos_tuple"
      = some (.pairs (pairsAfterInline cfgPosRS idEnv ["the"] "a dog")) := by
  exact (c1_inline_filtering cfgPosRS idEnv ["the"] (mkRec "text" "a dog") "a dog"
    (by decide) (by decide) (by decide)).1

/-! ## Claim C2 — when stage-2 default cleaning fires -/

/-- Claim C2 as stated is false: with `base_word = false` and
`base_type = "lemma_pos"` the part-of-speech branch does not fire, yet
stage-2 cleaning is also skipped (its condition tests only
`base_type`), so the token `"Hello"` reaches the output uncleaned even
though `default_clean` is on. -/
theorem c2_counterexample :
    processRecord cfgFlatPos idEnv ["the"] (mkRec "text" "Hello") "text"
      = some (.strs ["Hello"])
    ∧ ["Hello"].map cleanToken ≠ ["Hello"] := by
  refine ⟨by decide, by decide⟩

/-- C2 (amended): stage-2 default cleaning maps `cleanToken` over the
tokenized field exactly when `default_clean` is enabled AND `base_type`
is not `"lemma_pos"` — the condition ignores `base_word`, so with
`base_word = false` and `base_type = "lemma_pos"` (branch 1a not fired)
the tokens pass through uncleaned. -/
theorem c2_stage2_cleaning (cfg : Config) (env : Env) (stop : List String)
    (r : Record) (s : String)
    (hb : (cfg.base_word && cfg.base_type == "lemma_pos") = false)
    (hr : r cfg.textfield = some (.str s)) :
    cleanStage cfg (tokenStage cfg env stop (urlStage cfg r)) cfg.textfield
      = some (.strs (
          if cfg.default_clean && !(cfg.base_type == "lemma_pos") then
            (flatTokens cfg env (urlText cfg s)).map cleanToken
          else flatTokens cfg env (urlText cfg s))) := by
  have h0 := urlStage_textfield cfg r s hr
  have h1 := tokenStage_textfield_flat cfg env stop (urlStage cfg r) (urlText cfg s) hb h0
  exact cleanStage_textfield cfg _ _ h1

theorem c2_stage2_cleaning_witness :
    cleanStage cfgFlatPos
      (tokenStage cfgFlatPos idEnv ["the"] (urlStage cfgFlatPos (mkRec "text" "Hello")))
      "text" = some (.strs ["Hello"]) := by
  exact (c2_stage2_cleaning cfgFlatPos idEnv ["the"] (mkRec "text" "Hello") "Hello"
    (by decide) (by decide)).trans (by decide)

/-! ## Claim C4 — plain lemma/stem modes: stopword filtering before reduction -/

/-- C4: with `base_word` on and `base_type` `"lemma"` or `"stem"`, the
output tokens are the lemmatizer/stemmer mapped over exactly the input
tokens not in the stopword set (membership tested on the token before
reduction), in order, when stopword removal is on; over every token
unconditionally when it is off. -/
theorem c4_base_reduction_stopwords (cfg : Config) (env : Env) (stop : List String)
    (r : Record) (s : String)
    (hbw : cfg.base_word = true)
    (hbt : cfg.base_type = "lemma" ∨ cfg.base_type = "stem")
    (htf : cfg.textfield ≠ "pos_tag")
    (hr : r cfg.textfield = some (.str s)) :
    processRecord cfg env stop r cfg.textfield
      = some (shapedVal cfg (
          if cfg.remove_stopwords then
            ((stage2Tokens cfg env s).filter fun t => !stop.contains t).map
              (if cfg.base_type == "lemma" then env.lemmatize else env.stem)
          else
            (stage2Tokens cfg env s).map
              (if cfg.base_type == "lemma" then env.lemmatize else env.stem))) := by
  have hb : (cfg.base_word && cfg.base_type == "lemma_pos") = false := by
    rcases hbt with h | h <;> simp [h]
  have hflat := processRecord_flat cfg env stop r s hb htf hr
  have hl : reducedTokens cfg env stop (stage2Tokens cfg env s)
      = (if cfg.remove_stopwords then
          ((stage2Tokens cfg env s).filter fun t => !stop.contains t).map
            (if cfg.base_type == "lemma" then env.lemmatize else env.stem)
        else
          (stage2Tokens cfg env s).map
            (if cfg.base_type == "lemma" then env.lemmatize else env.stem)) := by
    unfold reducedTokens stopFilterStage noRSReduceStage rsReduceStage
    rcases hbt with h | h <;> by_cases hrs : cfg.remove_stopwords = true <;>
      simp [h, hrs, hbw]
  rw [hflat, hl]

theorem c4_base_reduction_stopwords_witness :
    processRecord cfgLemmaRS idEnv ["the"] (mkRec "text" "the dog") "text"
      = some (.strs ["dog"]) := by
  exact (c4_base_reduction_stopwords cfgLemmaRS idEnv ["the"] (mkRec "text" "the dog")
    "the dog" (by decide) (Or.inl (by decide)) (by decide) (by decide)).trans (by decide)

/-! ## Claim C5 — stopword-only filtering is exact membership filtering -/

theorem count_filter_stop_mem (stop l : List String) (t : String) (ht : t ∈ stop) :
    ((l.filter fun x => !stop.contains x).count t) = 0 := by
  induction l with
  | nil => rfl
  | cons c l ih =>
    rw [List.filter_cons]
    by_cases hc : (!stop.contains c) = true
    · have hcm : c ∉ stop := by simpa using hc
      have hne : ¬(c = t) := fun he => hcm (he.symm ▸ ht)
      rw [if_pos hc, List.count_cons]
      simp at ih
      simp [hne, ih]
    · rw [if_neg hc]
      exact ih

theorem count_filter_stop_not_mem (stop l : List String) (t : String) (ht : t ∉ stop) :
    ((l.filter fun x => !stop.contains x).count t) = l.count t := by
  induction l with
  | nil => rfl
  | cons c l ih =>
    rw [List.filter_cons]
    by_cases hc : (!stop.contains c) = true
    · rw [if_pos hc, List.count_cons, List.count_cons, ih]
    · have hcm : c ∈ stop := by simpa using hc
      have hne : ¬(c = t) := fun he => ht (he ▸ hcm)
      rw [if_neg hc, List.count_cons, ih]
      simp [hne]

/-- C5: when base-word reduction is off and stopword removal is on, the
output is the stage-0-2 token sequence filtered by exact stopword
membership: it is a sublist (order kept, tokens untransformed), every
occurrence of a stopword is removed, and the count of any non-stopword
token is unchanged. -/
theorem c5_stopword_only_filtering (cfg : Config) (env : Env) (stop : List String)
    (r : Record) (s : String)
    (hbw : cfg.base_word = false) (hrs : cfg.remove_stopwords = true)
    (htf : cfg.textfield ≠ "pos_tag")
    (hr : r cfg.textfield = some (.str s)) :
    processRecord cfg env stop r cfg.textfield
      = some (shapedVal cfg ((stage2Tokens cfg env s).filter fun t => !stop.contains t))
    ∧ ((stage2Tokens cfg env s).filter fun t => !stop.contains t).Sublist
        (stage2Tokens cfg env s)
    ∧ (∀ t, t ∈ stop →
        ((stage2Tokens cfg env s).filter fun t => !stop.contains t).count t = 0)
    ∧ (∀ t, t ∉ stop →
        ((stage2Tokens cfg env s).filter fun t => !stop.contains t).count t
          = (stage2Tokens cfg env s).count t) := by
  refine ⟨?_, List.filter_sublist _,
    fun t ht => count_filter_stop_mem stop _ t ht,
    fun t ht => count_filter_stop_not_mem stop _ t ht⟩
  have hb : (cfg.base_word && cfg.base_type == "lemma_pos") = false := by
    simp [hbw]
  have hflat := processRecord_flat cfg env stop r s hb htf hr
  have hl : reducedTokens cfg env stop (stage2Tokens cfg env s)
      = (stage2Tokens cfg env s).filter fun t => !stop.contains t := by
    unfold reducedTokens stopFilterStage noRSReduceStage rsReduceStage
    simp [hbw, hrs]
  rw [hflat, hl]

theorem c5_stopword_only_filtering_witness :
    processRecord cfgStopOnly idEnv ["the"] (mkRec "text" "the Dog ran") "text"
      = some (.strs ["dog", "ran"]) := by
  exact (c5_stopword_only_filtering cfgStopOnly idEnv ["the"]
    (mkRec "text" "the Dog ran") "the Dog ran"
    (by decide) (by decide) (by decide) (by decide)).1.trans (by decide)

/-! ## Claim C9 — no pre-run validation of `base_type` / `pos_tagset` -/

/-- Claim C9 as stated is false: the source declares no validator on
`base_type` or `pos_tagset` (lines 78-82, 95-99), so a run whose
`base_type` is outside `{lemma, lemma_pos, stem}` and whose
`pos_tagset` is outside `{universal, wsj, brown}` passes option
validation and records are processed; no configuration error is
surfaced. -/
theorem c9_counterexample :
    validateRaw
      { textfield := "text", default_clean := "true", remove_urls := "true",
        remove_stopwords := "true", base_word := "true", base_type := "frobnicate",
        mv := "true", force_nltk_tokenize := "false", pos_tagset := "klingon" } = true
    ∧ "frobnicate" ∉ (["lemma", "lemma_pos", "stem"] : List String)
    ∧ "klingon" ∉ (["universal", "wsj", "brown"] : List String) := by
  refine ⟨by decide, by decide, by decide⟩

/-- C9 (amended): pre-run validation covers only the boolean options
and the required field name; it is entirely independent of the
`base_type` and `pos_tagset` values, so out-of-enum values there are
accepted and reach record processing. -/
theorem c9_no_enum_validation (o : RawOptions) (bt pt : String) :
    validateRaw { o with base_type := bt, pos_tagset := pt } = validateRaw o := by
  rfl

/-! ## Claim C10 — unrecognized `base_type` silently disables stages 3 and 4 -/

theorem baseRSStage_skip (cfg : Config) (env : Env) (stop : List String) (r : Record)
    (hl : (cfg.base_type == "lemma") = false) (hs : (cfg.base_type == "stem") = false) :
    baseRSStage cfg env stop r = r := by
  unfold baseRSStage
  by_cases ho :
      (cfg.remove_stopwords && cfg.base_word && !(cfg.base_type == "lemma_pos")) = true <;>
    simp [ho, hl, hs]

theorem baseNoRSStage_skip (cfg : Config) (env : Env) (r : Record)
    (hl : (cfg.base_type == "lemma") = false) (hs : (cfg.base_type == "stem") = false) :
    baseNoRSStage cfg env r = r := by
  unfold baseNoRSStage
  by_cases ho : (!cfg.remove_stopwords && cfg.base_word) = true <;> simp [ho, hl, hs]

theorem stopOnlyStage_skip (cfg : Config) (stop : List String) (r : Record)
    (ho : (cfg.remove_stopwords && !cfg.base_word) = false) :
    stopOnlyStage cfg stop r = r := by
  unfold stopOnlyStage
  simp [ho]

/-- C10: with `base_word` on but `base_type` none of `"lemma"`,
`"lemma_pos"`, `"stem"`, the run behaves exactly like a run with
base-word reduction and stopword removal both disabled: no base
reduction and no stopword filtering happen (even when
`remove_stopwords` is on), and the tokenized (and, if `default_clean`,
cleaned) sequence passes to output shaping with stopwords retained. -/
theorem c10_unknown_base_type (cfg : Config) (env : Env) (stop : List String) (r : Record)
    (hbw : cfg.base_word = true)
    (h1 : cfg.base_type ≠ "lemma") (h2 : cfg.base_type ≠ "lemma_pos")
    (h3 : cfg.base_type ≠ "stem") :
    processRecord cfg env stop r
      = processRecord { cfg with base_word := false, remove_stopwords := false }
          env stop r := by
  have e1 : (cfg.base_type == "lemma") = false := by simp [h1]
  have e2 : (cfg.base_type == "lemma_pos") = false := by simp [h2]
  have e3 : (cfg.base_type == "stem") = false := by simp [h3]
  have htok : ∀ rr : Record,
      tokenStage { cfg with base_word := false, remove_stopwords := false } env stop rr
        = tokenStage cfg env stop rr := by
    intro rr
    unfold tokenStage
    simp [e1, e2, hbw]
  unfold processRecord
  rw [lemmaPosStage_skip cfg env _ (by simp [e2]),
      lemmaPosStage_skip { cfg with base_word := false, remove_stopwords := false } env _
        (by simp [e2]),
      baseRSStage_skip cfg env stop _ e1 e3,
      baseRSStage_skip { cfg with base_word := false, remove_stopwords := false } env stop _
        e1 e3,
      baseNoRSStage_skip cfg env _ e1 e3,
      baseNoRSStage_skip { cfg with base_word := false, remove_stopwords := false } env _
        e1 e3,
      stopOnlyStage_skip cfg stop _ (by simp [hbw]),
      stopOnlyStage_skip { cfg with base_word := false, remove_stopwords := false } stop _
        (by simp),
      htok]
  rfl

theorem c10_unknown_base_type_witness :
    processRecord cfgOddBase idEnv ["the"] (mkRec "text" "the dog")
      = processRecord { cfgOddBase with base_word := false, remove_stopwords := false }
          idEnv ["the"] (mkRec "text" "the dog") := by
  exact c10_unknown_base_type cfgOddBase idEnv ["the"] (mkRec "text" "the dog")
    (by decide) (by decide) (by decide) (by decide)

/-! ## Claim C8 — which fields the pipeline mutates -/

theorem tokenStage_frame_all (cfg : Config) (env : Env) (stop : List String)
    (r : Record) {q : String} (h1 : q ≠ cfg.textfield) (h3 : q ≠ "pos_tuple") :
    tokenStage cfg env stop r q = r q := by
  by_cases hb : (cfg.base_word && cfg.base_type == "lemma_pos") = true
  · exact tokenStage_1a_other cfg env stop r hb h3
  · exact tokenStage_flat_frame cfg env stop r (by simpa using hb) h1

/-- Claim C8 as stated is false: in lemma-with-POS mode the pipeline
also mutates `pos_tuple` — a second auxiliary field — and the
POS-tagged `(token, tag)` pairs persist there in the yielded record
(here `[("dog", "NN")]`, while the input record had no such field). -/
theorem c8_counterexample :
    processRecord cfgPosNC idEnv ["the"] (mkRec "text" "Dog") "pos_tuple"
      = some (.pairs [("dog", "NN")])
    ∧ mkRec "text" "Dog" "pos_tuple" = none := by
  refine ⟨by decide, by decide⟩

/-- C8 (amended): the pipeline writes only the designated text field
and the two auxiliary fields `pos_tag` and `pos_tuple`; every other
field of the record passes through unchanged. -/
theorem c8_frame (cfg : Config) (env : Env) (stop : List String) (r : Record)
    (q : String) (h1 : q ≠ cfg.textfield) (h2 : q ≠ "pos_tag")
    (h3 : q ≠ "pos_tuple") :
    processRecord cfg env stop r q = r q := by
  unfold processRecord
  rw [mvStage_frame _ _ h1 h2,
      stopOnlyStage_frame _ _ _ h1,
      baseNoRSStage_frame _ _ _ h1,
      baseRSStage_frame _ _ _ _ h1,
      lemmaPosStage_frame _ _ _ h1 h2 h3,
      cleanStage_frame _ _ h1,
      tokenStage_frame_all _ _ _ _ h1 h3,
      urlStage_frame _ _ h1]

theorem c8_frame_witness :
    processRecord cfgPosRS idEnv ["the"] (mkRec "text" "Dog") "host"
      = mkRec "text" "Dog" "host" := by
  exact c8_frame cfgPosRS idEnv ["the"] (mkRec "text" "Dog") "host"
    (by decide) (by decide) (by decide)

/-! ## Claim C6 — lemma-with-POS: text and tag fields stay parallel -/

theorem cleanStage_skip (cfg : Config) (r : Record)
    (hc : (cfg.default_clean && !(cfg.base_type == "lemma_pos")) = false) :
    cleanStage cfg r = r := by
  unfold cleanStage
  simp [hc]

theorem lemmaPosStage_values (cfg : Config) (env : Env) (r : Record)
    (pt : List (String × String))
    (hb : (cfg.base_word && cfg.base_type == "lemma_pos") = true)
    (htf1 : cfg.textfield ≠ "pos_tuple") (htf2 : cfg.textfield ≠ "pos_tag")
    (hr : r "pos_tuple" = some (.pairs pt)) :
    lemmaPosStage cfg env r cfg.textfield
      = some (.strs ((keptPairs env pt).map Prod.fst))
    ∧ lemmaPosStage cfg env r "pos_tag"
      = some (.strs ((keptPairs env pt).map Prod.snd)) := by
  unfold lemmaPosStage
  by_cases hk : (keptPairs env pt).isEmpty = true
  · constructor <;> simp [hb, hr, getPairs, hk, updRec, htf1, htf2]
  · constructor <;> simp [hb, hr, getPairs, hk, updRec, htf1, htf2]

theorem processRecord_lemma_pos (cfg : Config) (env : Env) (stop : List String)
    (r : Record) (s : String)
    (hb : (cfg.base_word && cfg.base_type == "lemma_pos") = true)
    (hmv : cfg.mv = true)
    (htf1 : cfg.textfield ≠ "pos_tuple") (htf2 : cfg.textfield ≠ "pos_tag")
    (hr : r cfg.textfield = some (.str s)) :
    processRecord cfg env stop r cfg.textfield
      = some (.strs ((keptPairs env (pairsAfterInline cfg env stop s)).map Prod.fst))
    ∧ processRecord cfg env stop r "pos_tag"
      = some (.strs ((keptPairs env (pairsAfterInline cfg env stop s)).map Prod.snd)) := by
  have hb' := hb
  simp only [Bool.and_eq_true] at hb'
  obtain ⟨hbw, hbt'⟩ := hb'
  have hbt : cfg.base_type = "lemma_pos" := by simpa using hbt'
  have e_lm : (cfg.base_type == "lemma") = false := by simp [hbt]
  have e_st : (cfg.base_type == "stem") = false := by simp [hbt]
  unfold processRecord
  rw [mvStage_id _ _ hmv,
      stopOnlyStage_skip _ _ _ (by simp [hbw]),
      baseNoRSStage_skip _ _ _ e_lm e_st,
      baseRSStage_skip _ _ _ _ e_lm e_st,
      cleanStage_skip _ _ (by simp [hbt])]
  have h0 := urlStage_textfield cfg r s hr
  have h1 := tokenStage_1a_posTuple cfg env stop (urlStage cfg r) (urlText cfg s) hb htf1 h0
  exact lemmaPosStage_values cfg env _ (pairsAfterInline cfg env stop s) hb htf1 htf2 h1

/-- C6: in lemma-with-POS mode the text field and the `pos_tag` field
are rebuilt as parallel projections of one kept-pair list: a pair is
kept only when its lemma is nonempty, an empty lemma and its tag are
both dropped, and the two fields always have equal length. -/
theorem c6_parallel_fields (cfg : Config) (env : Env) (stop : List String)
    (r : Record) (s : String)
    (hbw : cfg.base_word = true) (hbt : cfg.base_type = "lemma_pos")
    (hmv : cfg.mv = true)
    (htf1 : cfg.textfield ≠ "pos_tuple") (htf2 : cfg.textfield ≠ "pos_tag")
    (hr : r cfg.textfield = some (.str s)) :
    ∃ kept : List (String × String),
      processRecord cfg env stop r cfg.textfield = some (.strs (kept.map Prod.fst))
      ∧ processRecord cfg env stop r "pos_tag" = some (.strs (kept.map Prod.snd))
      ∧ (∀ p ∈ kept, p.1 ≠ "")
      ∧ (kept.map Prod.fst).length = (kept.map Prod.snd).length := by
  have hb : (cfg.base_word && cfg.base_type == "lemma_pos") = true := by
    simp [hbw, hbt]
  obtain ⟨ha, hb2⟩ := processRecord_lemma_pos cfg env stop r s hb hmv htf1 htf2 hr
  refine ⟨keptPairs env (pairsAfterInline cfg env stop s), ha, hb2, ?_, by simp⟩
  intro p hp
  rw [keptPairs, List.mem_filterMap] at hp
  obtain ⟨a, _, hfq⟩ := hp
  by_cases hz : env.lemmatizePos a.1 (get_wordnet_pos a.2) = ""
  · simp [hz] at hfq
  · simp only [hz, if_neg, if_false] at hfq
    injection hfq with h
    subst h
    exact hz

theorem c6_parallel_fields_witness :
    ∃ kept : List (String × String),
      processRecord cfgPosRS idEnv ["the"] (mkRec "text" "Dog") "text"
        = some (.strs (kept.map Prod.fst))
      ∧ processRecord cfgPosRS idEnv ["the"] (mkRec "text" "Dog") "pos_tag"
        = some (.strs (kept.map Prod.snd))
      ∧ (∀ p ∈ kept, p.1 ≠ "")
      ∧ (kept.map Prod.fst).length = (kept.map Prod.snd).length := by
  exact c6_parallel_fields cfgPosRS idEnv ["the"] (mkRec "text" "Dog") "Dog"
    (by decide) (by decide) (by decide) (by decide) (by decide) (by decide)

/-! ## Claim C7 — `mv=false` output join and its split round-trip -/

theorem toLower_ne_space (c : Char) (h : (c.isAlpha || c == '_') = true) :
    ¬ c.toLower = ' ' := by
  intro he
  have hval : c.toLower.toNat = 32 := by rw [he]; rfl
  unfold Char.toLower at hval
  by_cases hn : (c.toNat ≥ 65 ∧ c.toNat ≤ 90)
  · rw [if_pos hn] at hval
    have hv : (c.toNat + 32).isValidChar := by
      left
      omega
    rw [Char.ofNat, dif_pos hv] at hval
    have h2 : c.toNat + 32 = 32 := hval
    omega
  · rw [if_neg hn] at hval
    have hc : c = ' ' := Char.ext (UInt32.ext hval)
    subst hc
    simp at h

theorem cleanToken_spaceFree (s : String) : spaceFree (cleanToken s) = true := by
  rw [spaceFree, cleanToken]
  refine List.all_eq_true.mpr ?_
  intro c hc
  simp only [List.mem_map, List.mem_filter] at hc
  obtain ⟨d, ⟨_, hd⟩, rfl⟩ := hc
  simp only [Bool.not_eq_true', beq_eq_false_iff_ne, ne_eq]
  exact toLower_ne_space d hd

theorem splitNW_chars_all :
    ∀ n (l : List Char), l.length ≤ n →
      (∀ acc, (∀ c ∈ acc, isWordChar c = true) →
        ∀ t ∈ splitNWAux acc l, ∀ c ∈ t, isWordChar c = true)
      ∧ (∀ t ∈ splitNWSep l, ∀ c ∈ t, isWordChar c = true) := by
  intro n
  induction n with
  | zero =>
    intro l hl
    have hnil : l = [] := List.length_eq_zero.mp (Nat.le_zero.mp hl)
    subst hnil
    constructor
    · intro acc hacc t ht c hc
      rw [splitNWAux] at ht
      simp only [List.mem_singleton] at ht
      subst ht
      exact hacc c (by simpa using hc)
    · intro t ht c hc
      rw [splitNWSep] at ht
      simp only [List.mem_singleton] at ht
      subst ht
      simp at hc
  | succ n ih =>
    intro l hl
    cases l with
    | nil =>
      constructor
      · intro acc hacc t ht c hc
        rw [splitNWAux] at ht
        simp only [List.mem_singleton] at ht
        subst ht
        exact hacc c (by simpa using hc)
      · intro t ht c hc
        rw [splitNWSep] at ht
        simp only [List.mem_singleton] at ht
        subst ht
        simp at hc
    | cons d ds =>
      have hds : ds.length ≤ n := by
        simp only [List.length_cons] at hl
        omega
      constructor
      · intro acc hacc t ht c hc
        rw [splitNWAux] at ht
        by_cases hw : isWordChar d = true
        · rw [if_pos hw] at ht
          refine (ih ds hds).1 (d :: acc) ?_ t ht c hc
          intro x hx
          rcases List.mem_cons.mp hx with h | h
          · subst h; exact hw
          · exact hacc x h
        · rw [if_neg hw] at ht
          rcases List.mem_cons.mp ht with h | h
          · subst h
            exact hacc c (by simpa using hc)
          · exact (ih ds hds).2 t h c hc
      · intro t ht c hc
        rw [splitNWSep] at ht
        by_cases hw : isWordChar d = true
        · rw [if_pos hw] at ht
          refine (ih ds hds).1 [d] ?_ t ht c hc
          intro x hx
          simp only [List.mem_singleton] at hx
          subst hx
          exact hw
        · rw [if_neg hw] at ht
          exact (ih ds hds).2 t ht c hc

theorem splitNW_spaceFree (s : String) : ∀ t ∈ splitNW s, spaceFree t = true := by
  intro t ht
  rw [splitNW] at ht
  simp only [List.mem_map] at ht
  obtain ⟨l, hl, rfl⟩ := ht
  have hchars := (splitNW_chars_all s.data.length s.data (Nat.le_refl _)).1
    [] (by intro c hc; simp at hc) l hl
  rw [spaceFree]
  refine List.all_eq_true.mpr ?_
  intro c hc
  have hw := hchars c (by simpa using hc)
  have : ¬ c = ' ' := by
    intro he
    subst he
    simp [isWordChar] at hw
  simpa using this

theorem spaceFree_chars {t : String} (h : spaceFree t = true) :
    ∀ c ∈ t.data, ¬ c = ' ' := by
  intro c hc
  have h2 := List.all_eq_true.mp h c hc
  simpa using h2

theorem splitSpAux_no_space (p : List Char) :
    ∀ acc, (∀ c ∈ p, ¬ c = ' ') → splitSpAux acc p = [acc.reverse ++ p] := by
  induction p with
  | nil =>
    intro acc _
    simp [splitSpAux]
  | cons c cs ih =>
    intro acc hp
    rw [splitSpAux]
    have hc : ¬(c == ' ') = true := by
      simp only [beq_iff_eq]
      exact fun h => hp c (List.mem_cons_self c cs) h
    rw [if_neg hc, ih (c :: acc) (fun x hx => hp x (List.mem_cons_of_mem c hx))]
    simp

theorem splitSpAux_append (p t : List Char) :
    ∀ acc, (∀ c ∈ p, ¬ c = ' ') →
      splitSpAux acc (p ++ ' ' :: t) = (acc.reverse ++ p) :: splitSpAux [] t := by
  induction p with
  | nil =>
    intro acc _
    rw [List.nil_append, splitSpAux]
    simp
  | cons c cs ih =>
    intro acc hp
    rw [List.cons_append, splitSpAux]
    have hc : ¬(c == ' ') = true := by
      simp only [beq_iff_eq]
      exact fun h => hp c (List.mem_cons_self c cs) h
    rw [if_neg hc, ih (c :: acc) (fun x hx => hp x (List.mem_cons_of_mem c hx))]
    simp

theorem intercalate_space_cons (a b : List Char) (L : List (List Char)) :
    List.intercalate [' '] (a :: b :: L)
      = a ++ ' ' :: List.intercalate [' '] (b :: L) := by
  simp [List.intercalate, List.intersperse]

theorem splitSpChars_join :
    ∀ parts : List (List Char), parts ≠ [] →
      (∀ p ∈ parts, ∀ c ∈ p, ¬ c = ' ') →
      splitSpAux [] (List.intercalate [' '] parts) = parts := by
  intro parts
  induction parts with
  | nil => intro h; exact absurd rfl h
  | cons a rest ih =>
    intro _ hp
    cases rest with
    | nil =>
      have h1 : List.intercalate [' '] [a] = a := by simp [List.intercalate]
      rw [h1, splitSpAux_no_space a [] (hp a (by simp))]
      simp
    | cons b rest2 =>
      rw [intercalate_space_cons, splitSpAux_append a _ [] (hp a (by simp))]
      rw [ih (by simp) fun p hpp c hc => hp p (List.mem_cons_of_mem a hpp) c hc]
      simp

theorem mk_data (s : String) : String.mk s.data = s := by
  cases s
  rfl

theorem splitSp_joinSp (l : List String) (hl : l ≠ [])
    (h : ∀ t ∈ l, spaceFree t = true) : splitSp (joinSp l) = l := by
  rw [splitSp, joinSp]
  have hd : (String.mk (List.intercalate [' '] (l.map String.data))).data
      = List.intercalate [' '] (l.map String.data) := rfl
  rw [hd, splitSpChars_join (l.map String.data) (by simpa using hl) ?hsp]
  case hsp =>
    intro p hp c hc
    obtain ⟨t, ht, rfl⟩ := List.mem_map.mp hp
    exact spaceFree_chars (h t ht) c hc
  rw [List.map_map]
  have hid : ∀ t ∈ l, (String.mk ∘ String.data) t = t := fun t _ => mk_data t
  calc l.map (String.mk ∘ String.data) = l.map id := List.map_congr_left hid
  _ = l := l.map_id

theorem tokens_pred_map {P : String → Prop} (l : List String) (f : String → String)
    (hf : ∀ x, P x → P (f x)) (h : ∀ t ∈ l, P t) : ∀ t ∈ l.map f, P t := by
  intro t ht
  obtain ⟨x, hx, rfl⟩ := List.mem_map.mp ht
  exact hf x (h x hx)

theorem tokens_pred_filter {P : String → Prop} (l : List String) (p : String → Bool)
    (h : ∀ t ∈ l, P t) : ∀ t ∈ l.filter p, P t :=
  fun t ht => h t (List.mem_of_mem_filter ht)

theorem rsReduceStage_pred {P : String → Prop} (cfg : Config) (env : Env)
    (stop : List String) (toks : List String)
    (hL : ∀ x, P x → P (env.lemmatize x)) (hS : ∀ x, P x → P (env.stem x))
    (h : ∀ t ∈ toks, P t) : ∀ t ∈ rsReduceStage cfg env stop toks, P t := by
  unfold rsReduceStage
  by_cases c1 :
      (cfg.remove_stopwords && cfg.base_word && !(cfg.base_type == "lemma_pos")) = true
  · by_cases c2 : (cfg.base_type == "lemma") = true
    · simp only [c1, c2, if_true]
      exact tokens_pred_map _ _ hL (tokens_pred_filter _ _ h)
    · by_cases c3 : (cfg.base_type == "stem") = true
      · simp only [c1, c2, c3, if_true, if_false]
        exact tokens_pred_map _ _ hS (tokens_pred_filter _ _ h)
      · simp only [c1, c2, c3, if_true, if_false]
        exact h
  · simp only [c1, if_false]
    exact h

theorem noRSReduceStage_pred {P : String → Prop} (cfg : Config) (env : Env)
    (toks : List String)
    (hL : ∀ x, P x → P (env.lemmatize x)) (hS : ∀ x, P x → P (env.stem x))
    (h : ∀ t ∈ toks, P t) : ∀ t ∈ noRSReduceStage cfg env toks, P t := by
  unfold noRSReduceStage
  by_cases c1 : (!cfg.remove_stopwords && cfg.base_word) = true
  · by_cases c2 : (cfg.base_type == "lemma") = true
    · simp only [c1, c2, if_true]
      exact tokens_pred_map _ _ hL h
    · by_cases c3 : (cfg.base_type == "stem") = true
      · simp only [c1, c2, c3, if_true, if_false]
        exact tokens_pred_map _ _ hS h
      · simp only [c1, c2, c3, if_true, if_false]
        exact h
  · simp only [c1, if_false]
    exact h

theorem stopFilterStage_pred {P : String → Prop} (cfg : Config) (stop : List String)
    (toks : List String) (h : ∀ t ∈ toks, P t) :
    ∀ t ∈ stopFilterStage cfg stop toks, P t := by
  unfold stopFilterStage
  by_cases c1 : (cfg.remove_stopwords && !cfg.base_word) = true
  · simp only [c1, if_true]
    exact tokens_pred_filter _ _ h
  · simp only [c1, if_false]
    exact h

theorem reducedTokens_pred {P : String → Prop} (cfg : Config) (env : Env)
    (stop : List String) (toks : List String)
    (hL : ∀ x, P x → P (env.lemmatize x)) (hS : ∀ x, P x → P (env.stem x))
    (h : ∀ t ∈ toks, P t) : ∀ t ∈ reducedTokens cfg env stop toks, P t := by
  unfold reducedTokens
  exact stopFilterStage_pred cfg stop _
    (noRSReduceStage_pred cfg env _ hL hS (rsReduceStage_pred cfg env stop _ hL hS h))

theorem stage2Tokens_spaceFree (cfg : Config) (env : Env) (s : String)
    (hdc : cfg.default_clean = true)
    (henvTok : ∀ u t, t ∈ env.tokenize u → spaceFree t = true) :
    ∀ t ∈ stage2Tokens cfg env s, spaceFree t = true := by
  unfold stage2Tokens
  by_cases hlp : (cfg.base_type == "lemma_pos") = true
  · simp only [hdc, hlp, Bool.not_true, Bool.and_false, if_false]
    unfold flatTokens
    by_cases hf : cfg.force_nltk_tokenize = true
    · simp only [hf, if_true]
      intro t ht
      exact henvTok _ t ht
    · simp only [hf, hdc, if_false, Bool.true_or, if_true]
      exact splitNW_spaceFree _
  · simp only [hdc, hlp, Bool.not_false, Bool.and_true, if_true]
    intro t ht
    obtain ⟨x, _, rfl⟩ := List.mem_map.mp ht
    exact cleanToken_spaceFree x

theorem pairsAfterInline_fst_spaceFree (cfg : Config) (env : Env)
    (stop : List String) (s : String) (hdc : cfg.default_clean = true) :
    ∀ p ∈ pairsAfterInline cfg env stop s, spaceFree p.1 = true := by
  unfold pairsAfterInline inlineFiltered
  by_cases hrs : cfg.remove_stopwords = true
  · simp only [hdc, hrs, Bool.and_self, if_true]
    intro p hp
    unfold posFilterRS at hp
    obtain ⟨q, _, rfl⟩ := List.mem_map.mp hp
    exact cleanToken_spaceFree q.1
  · simp only [Bool.not_eq_true] at hrs
    simp only [hdc, hrs, Bool.and_false, Bool.not_false, Bool.and_true, if_false, if_true]
    intro p hp
    unfold posFilterNC at hp
    obtain ⟨q, _, rfl⟩ := List.mem_map.mp hp
    exact cleanToken_spaceFree q.1

theorem keptPairs_fst_spaceFree (env : Env) (pt : List (String × String))
    (hLP : ∀ t p, spaceFree t = true → spaceFree (env.lemmatizePos t p) = true)
    (hpt : ∀ p ∈ pt, spaceFree p.1 = true) :
    ∀ t ∈ (keptPairs env pt).map Prod.fst, spaceFree t = true := by
  intro t ht
  obtain ⟨p, hp, rfl⟩ := List.mem_map.mp ht
  rw [keptPairs, List.mem_filterMap] at hp
  obtain ⟨a, ha, hfa⟩ := hp
  by_cases hz : env.lemmatizePos a.1 (get_wordnet_pos a.2) = ""
  · simp [hz] at hfa
  · simp only [hz, if_neg, if_false] at hfa
    injection hfa with h
    subst h
    exact hLP a.1 _ (hpt a ha)

/-- The text-field output in lemma-with-POS mode, for any `mv` setting:
the kept lemmas, shaped per stage 5. -/
theorem processRecord_lemma_pos_shaped (cfg : Config) (env : Env) (stop : List String)
    (r : Record) (s : String)
    (hb : (cfg.base_word && cfg.base_type == "lemma_pos") = true)
    (htf1 : cfg.textfield ≠ "pos_tuple") (htf2 : cfg.textfield ≠ "pos_tag")
    (hr : r cfg.textfield = some (.str s)) :
    processRecord cfg env stop r cfg.textfield
      = some (shapedVal cfg
          ((keptPairs env (pairsAfterInline cfg env stop s)).map Prod.fst)) := by
  have hb' := hb
  simp only [Bool.and_eq_true] at hb'
  obtain ⟨hbw, hbt'⟩ := hb'
  have hbt : cfg.base_type = "lemma_pos" := by simpa using hbt'
  have e_lm : (cfg.base_type == "lemma") = false := by simp [hbt]
  have e_st : (cfg.base_type == "stem") = false := by simp [hbt]
  unfold processRecord
  rw [stopOnlyStage_skip _ _ _ (by simp [hbw]),
      baseNoRSStage_skip _ _ _ e_lm e_st,
      baseRSStage_skip _ _ _ _ e_lm e_st,
      cleanStage_skip _ _ (by simp [hbt])]
  have h0 := urlStage_textfield cfg r s hr
  have h1 := tokenStage_1a_posTuple cfg env stop (urlStage cfg r) (urlText cfg s) hb htf1 h0
  have hv := (lemmaPosStage_values cfg env _ (pairsAfterInline cfg env stop s)
    hb htf1 htf2 h1).1
  exact mvStage_textfield cfg _ _ htf2 hv

/-- Claim C7 as stated is false on the empty token sequence: joining
`[]` yields `""`, and splitting `""` on single spaces yields `[""]`,
not `[]` — here a run whose only token is the stopword `"the"`. -/
theorem c7_counterexample :
    processRecord cfgStopJoin idEnv ["the"] (mkRec "text" "the") "text"
      = some (.str (joinSp []))
    ∧ processRecord cfgStopOnly idEnv ["the"] (mkRec "text" "the") "text"
      = some (.strs [])
    ∧ splitSp (joinSp []) ≠ ([] : List String) := by
  refine ⟨by decide, by decide, by decide⟩

/-- C7 (amended): with `mv=false` the output text field is the token
sequence joined with single spaces, and when `default_clean` is on and
the external reducers emit space-free tokens, splitting that string on
single spaces reconstructs the multivalue token sequence exactly —
provided the token sequence is nonempty (the empty sequence joins to
`""`, which splits to `[""]`). -/
theorem c7_join_roundtrip (cfg : Config) (env : Env) (stop : List String)
    (r : Record) (s : String)
    (hdc : cfg.default_clean = true) (hmv : cfg.mv = false)
    (henv : envSpaceFree env)
    (htf1 : cfg.textfield ≠ "pos_tuple") (htf2 : cfg.textfield ≠ "pos_tag")
    (hr : r cfg.textfield = some (.str s)) :
    ∃ toks : List String,
      processRecord { cfg with mv := true } env stop r cfg.textfield
        = some (.strs toks)
      ∧ processRecord cfg env stop r cfg.textfield = some (.str (joinSp toks))
      ∧ (toks ≠ [] → splitSp (joinSp toks) = toks) := by
  obtain ⟨henvTok, henvLP, henvL, henvS⟩ := henv
  by_cases hb : (cfg.base_word && cfg.base_type == "lemma_pos") = true
  · refine ⟨(keptPairs env (pairsAfterInline cfg env stop s)).map Prod.fst, ?_, ?_, ?_⟩
    · exact processRecord_lemma_pos_shaped { cfg with mv := true } env stop r s hb
        htf1 htf2 hr
    · have h := processRecord_lemma_pos_shaped cfg env stop r s hb htf1 htf2 hr
      rw [h]
      unfold shapedVal
      rw [hmv]
      simp
    · intro hne
      refine splitSp_joinSp _ hne ?_
      exact keptPairs_fst_spaceFree env _ henvLP
        (pairsAfterInline_fst_spaceFree cfg env stop s hdc)
  · have hbf : (cfg.base_word && cfg.base_type == "lemma_pos") = false := by
      simpa using hb
    refine ⟨reducedTokens cfg env stop (stage2Tokens cfg env s), ?_, ?_, ?_⟩
    · exact processRecord_flat { cfg with mv := true } env stop r s hbf htf2 hr
    · have h := processRecord_flat cfg env stop r s hbf htf2 hr
      rw [h]
      unfold shapedVal
      rw [hmv]
      simp
    · intro hne
      refine splitSp_joinSp _ hne ?_
      exact reducedTokens_pred cfg env stop _ (fun x => henvL x) (fun x => henvS x)
        (stage2Tokens_spaceFree cfg env s hdc henvTok)

theorem splitWSAux_chars :
    ∀ (l : List Char) (acc : List Char), (∀ c ∈ acc, isPySpace c = false) →
      ∀ t ∈ splitWSAux acc l, ∀ c ∈ t, isPySpace c = false := by
  intro l
  induction l with
  | nil =>
    intro acc hacc t ht c hc
    rw [splitWSAux] at ht
    by_cases he : acc.isEmpty = true
    · simp [he] at ht
    · rw [if_neg he] at ht
      simp only [List.mem_singleton] at ht
      subst ht
      exact hacc c (by simpa using hc)
  | cons d ds ih =>
    intro acc hacc t ht c hc
    rw [splitWSAux] at ht
    by_cases hw : isPySpace d = true
    · rw [if_pos hw] at ht
      by_cases he : acc.isEmpty = true
      · rw [if_pos he] at ht
        exact ih [] (by intro x hx; simp at hx) t ht c hc
      · rw [if_neg he] at ht
        rcases List.mem_cons.mp ht with h | h
        · subst h
          exact hacc c (by simpa using hc)
        · exact ih [] (by intro x hx; simp at hx) t h c hc
    · rw [if_neg hw] at ht
      refine ih (d :: acc) ?_ t ht c hc
      intro x hx
      rcases List.mem_cons.mp hx with h | h
      · subst h
        simpa using hw
      · exact hacc x h

theorem splitWS_spaceFree (s : String) : ∀ t ∈ splitWS s, spaceFree t = true := by
  intro t ht
  rw [splitWS] at ht
  simp only [List.mem_map] at ht
  obtain ⟨l, hl, rfl⟩ := ht
  have hchars := splitWSAux_chars s.data [] (by intro c hc; simp at hc) l hl
  rw [spaceFree]
  refine List.all_eq_true.mpr ?_
  intro c hc
  have hw := hchars c (by simpa using hc)
  have : ¬ c = ' ' := by
    intro he
    subst he
    simp [isPySpace] at hw
  simpa using this

theorem idEnv_spaceFree : envSpaceFree idEnv := by
  refine ⟨fun u t ht => splitWS_spaceFree u t ht, fun t p h => h,
    fun t h => h, fun t h => h⟩

theorem c7_join_roundtrip_witness :
    ∃ toks : List String,
      processRecord { cfgStopJoin with mv := true } idEnv ["the"]
        (mkRec "text" "big dogs") "text" = some (.strs toks)
      ∧ processRecord cfgStopJoin idEnv ["the"] (mkRec "text" "big dogs") "text"
        = some (.str (joinSp toks))
      ∧ (toks ≠ [] → splitSp (joinSp toks) = toks) := by
  exact c7_join_roundtrip cfgStopJoin idEnv ["the"] (mkRec "text" "big dogs")
    "big dogs" (by decide) (by decide) idEnv_spaceFree
    (by decide) (by decide) (by decide)

/-! ## Claim C3 — URL removal: terminator set and residual matches

The lemmas below characterize `urlMatch` and `removeUrlsAux`, establish
the shield invariant (the output of a removal agrees with its input up
to the first deletion point, where it continues with a terminator
character or ends), and conclude that no match of the code's URL
pattern survives `f_remove_urls`. -/

theorem removeUrlsAux_nil (term : Char → Bool) : removeUrlsAux term [] = [] := by
  rw [removeUrlsAux]

theorem removeUrlsAux_cons_some (term : Char → Bool) (c : Char) (cs rest : List Char)
    (h : urlMatch term (c :: cs) = some rest) :
    removeUrlsAux term (c :: cs) = removeUrlsAux term rest := by
  rw [removeUrlsAux]
  split
  · next r hr =>
    rw [h] at hr
    injection hr with hr
    rw [hr]
  · next hr =>
    rw [h] at hr
    cases hr

theorem removeUrlsAux_cons_none (term : Char → Bool) (c : Char) (cs : List Char)
    (h : urlMatch term (c :: cs) = none) :
    removeUrlsAux term (c :: cs) = c :: removeUrlsAux term cs := by
  rw [removeUrlsAux]
  split
  · next r hr =>
    rw [h] at hr
    cases hr
  · rfl

theorem takeWhile_ne_nil_iff (term : Char → Bool) (mid : List Char) :
    mid.takeWhile (fun c => !term c) ≠ [] ↔
      ∃ d rest, mid = d :: rest ∧ term d = false := by
  cases mid with
  | nil => simp [List.takeWhile]
  | cons d rest =>
    rw [List.takeWhile_cons]
    by_cases hd : (!term d) = true
    · simp only [hd, if_true]
      constructor
      · intro _
        exact ⟨d, rest, rfl, by simpa using hd⟩
      · intro _
        simp
    · simp only [hd, if_false]
      constructor
      · intro h
        exact absurd rfl h
      · rintro ⟨d', rest', heq, hterm⟩
        injection heq with h1 h2
        subst h1
        simp [hterm] at hd

theorem stripScheme_eq_some_iff (l : List Char) (mid : List Char) :
    stripScheme l = some mid ↔
      ((∃ rest, l = "https://".data ++ rest ∧ mid = rest)
        ∨ (l.take 8 ≠ "https://".data ∧ ∃ rest, l = "http://".data ++ rest ∧ mid = rest)) := by
  unfold stripScheme
  by_cases h8 : l.take 8 = "https://".data
  · rw [if_pos h8]
    constructor
    · intro h
      injection h with h
      refine Or.inl ⟨l.drop 8, ?_, h.symm⟩
      conv_lhs => rw [← List.take_append_drop 8 l, h8]
    · rintro (⟨rest, heq, hmid⟩ | ⟨hne, _⟩)
      · subst heq
        rw [List.drop_left' (by rfl)] at *
        rw [hmid]
      · exact absurd h8 hne
  · rw [if_neg h8]
    by_cases h7 : l.take 7 = "http://".data
    · rw [if_pos h7]
      constructor
      · intro h
        injection h with h
        refine Or.inr ⟨h8, l.drop 7, ?_, h.symm⟩
        conv_lhs => rw [← List.take_append_drop 7 l, h7]
      · rintro (⟨rest, heq, hmid⟩ | ⟨_, rest, heq, hmid⟩)
        · exfalso
          apply h8
          subst heq
          rw [List.take_left' (by rfl)]
        · subst heq
          rw [List.drop_left' (by rfl)] at *
          rw [hmid]
    · rw [if_neg h7]
      constructor
      · intro h
        cases h
      · rintro (⟨rest, heq, hmid⟩ | ⟨_, rest, heq, hmid⟩)
        · exfalso
          apply h8
          subst heq
          rw [List.take_left' (by rfl)]
        · exfalso
          apply h7
          subst heq
          rw [List.take_left' (by rfl)]

theorem urlMatch_eq_of_strip (term : Char → Bool) {l mid : List Char}
    (hs : stripScheme l = some mid) :
    urlMatch term l = if mid.takeWhile (fun c => !term c) = [] then none
      else some (mid.dropWhile fun c => !term c) := by
  unfold urlMatch
  rw [hs]

theorem urlMatch_eq_none_of_strip (term : Char → Bool) {l : List Char}
    (hs : stripScheme l = none) : urlMatch term l = none := by
  unfold urlMatch
  rw [hs]

theorem urlMatch_isSome_iff (term : Char → Bool) (l : List Char) :
    (urlMatch term l).isSome = true ↔
      ∃ P d rest, (P = "https://".data ∨ P = "http://".data)
        ∧ l = P ++ d :: rest ∧ term d = false := by
  cases hs : stripScheme l with
  | none =>
    rw [urlMatch_eq_none_of_strip term hs]
    simp only [Option.isSome_none, Bool.false_eq_true, false_iff]
    rintro ⟨P, d, rest, hP, heq, hd⟩
    rcases hP with rfl | rfl
    · have hsome : stripScheme l = some (d :: rest) := by
        rw [stripScheme_eq_some_iff]
        exact Or.inl ⟨d :: rest, heq, rfl⟩
      rw [hs] at hsome
      cases hsome
    · have hsome : stripScheme l = some (d :: rest) := by
        rw [stripScheme_eq_some_iff]
        refine Or.inr ⟨?_, d :: rest, heq, rfl⟩
        subst heq
        intro hcontra
        rw [show ("http://".data ++ d :: rest) = ("http://".data ++ [d]) ++ rest by simp]
          at hcontra
        rw [List.take_left' (by simp)] at hcontra
        simp at hcontra
      rw [hs] at hsome
      cases hsome
  | some mid =>
    rw [urlMatch_eq_of_strip term hs]
    constructor
    · intro hsome
      by_cases hc : mid.takeWhile (fun c => !term c) = []
      · rw [if_pos hc] at hsome
        cases hsome
      · obtain ⟨d, rest, hmid, hd⟩ := (takeWhile_ne_nil_iff term mid).mp hc
        rcases (stripScheme_eq_some_iff l mid).mp hs with ⟨r, heq, hmr⟩ | ⟨_, r, heq, hmr⟩
        · subst hmr
          exact ⟨"https://".data, d, rest, Or.inl rfl, by rw [heq, hmid], hd⟩
        · subst hmr
          exact ⟨"http://".data, d, rest, Or.inr rfl, by rw [heq, hmid], hd⟩
    · rintro ⟨P, d, rest, hP, heq, hd⟩
      have hsome : stripScheme l = some (d :: rest) := by
        rw [stripScheme_eq_some_iff]
        rcases hP with rfl | rfl
        · exact Or.inl ⟨d :: rest, heq, rfl⟩
        · refine Or.inr ⟨?_, d :: rest, heq, rfl⟩
          subst heq
          intro hcontra
          rw [show ("http://".data ++ d :: rest) = ("http://".data ++ [d]) ++ rest by simp]
            at hcontra
          rw [List.take_left' (by simp)] at hcontra
          simp at hcontra
      rw [hs] at hsome
      injection hsome with hsome
      subst hsome
      have hne : (d :: rest).takeWhile (fun c => !term c) ≠ [] := by
        rw [takeWhile_ne_nil_iff]
        exact ⟨d, rest, rfl, hd⟩
      rw [if_neg hne]
      rfl

theorem dropWhile_head_not (p : Char → Bool) :
    ∀ (l : List Char) (d : Char) (t : List Char), l.dropWhile p = d :: t → p d = false := by
  intro l
  induction l with
  | nil => intro d t h; cases h
  | cons c cs ih =>
    intro d t h
    rw [List.dropWhile_cons] at h
    by_cases hc : p c = true
    · rw [if_pos hc] at h
      exact ih d t h
    · rw [if_neg hc] at h
      injection h with h1 _
      subst h1
      simpa using hc

theorem urlMatch_some_rest (term : Char → Bool) {l rest : List Char}
    (h : urlMatch term l = some rest) :
    rest = [] ∨ ∃ d t, rest = d :: t ∧ term d = true := by
  cases hs : stripScheme l with
  | none =>
    rw [urlMatch_eq_none_of_strip term hs] at h
    cases h
  | some mid =>
    rw [urlMatch_eq_of_strip term hs] at h
    by_cases hc : mid.takeWhile (fun c => !term c) = []
    · rw [if_pos hc] at h
      cases h
    · rw [if_neg hc] at h
      injection h with h
      subst h
      rcases hd : mid.dropWhile (fun c => !term c) with _ | ⟨d, t⟩
      · exact Or.inl rfl
      · refine Or.inr ⟨d, t, rfl, ?_⟩
        have := dropWhile_head_not _ mid d t hd
        simpa using this

theorem hasURLSub_nil (term : Char → Bool) : hasURLSub term [] = false := by
  have h : urlMatch term [] = none := by
    apply urlMatch_eq_none_of_strip
    rfl
  simp [hasURLSub, h]

theorem hasURLSub_cons (term : Char → Bool) (c : Char) (X : List Char) :
    hasURLSub term (c :: X)
      = ((urlMatch term (c :: X)).isSome || hasURLSub term X) := by
  simp [hasURLSub, List.tails]

theorem urlMatch_length (term : Char → Bool) {l rest : List Char}
    (h : urlMatch term l = some rest) : rest.length + 7 ≤ l.length := by
  cases hs : stripScheme l with
  | none =>
    rw [urlMatch_eq_none_of_strip term hs] at h
    cases h
  | some mid =>
    rw [urlMatch_eq_of_strip term hs] at h
    by_cases hc : mid.takeWhile (fun x => !term x) = []
    · rw [if_pos hc] at h
      cases h
    · rw [if_neg hc] at h
      injection h with h
      subst h
      have h1 : (mid.dropWhile fun x => !term x).length ≤ mid.length :=
        (List.dropWhile_suffix _).length_le
      have h2 : mid.length + 7 ≤ l.length := by
        rcases (stripScheme_eq_some_iff l mid).mp hs with ⟨r, heq, hmr⟩ | ⟨_, r, heq, hmr⟩
        · subst hmr
          subst heq
          simp [List.length_append]
        · subst hmr
          subst heq
          simp [List.length_append]
      omega

theorem removeUrls_shield (term : Char → Bool) (hh : term 'h' = false) :
    ∀ (n : Nat) (l : List Char), l.length ≤ n →
      removeUrlsAux term l = l ∨
      ∃ j, (removeUrlsAux term l).take j = l.take j ∧
        ((removeUrlsAux term l).drop j = [] ∨
          ∃ d t, (removeUrlsAux term l).drop j = d :: t ∧ term d = true) := by
  intro n
  induction n with
  | zero =>
    intro l hl
    have hnil : l = [] := List.length_eq_zero.mp (Nat.le_zero.mp hl)
    subst hnil
    left
    exact removeUrlsAux_nil term
  | succ n ih =>
    intro l hl
    cases l with
    | nil =>
      left
      exact removeUrlsAux_nil term
    | cons c cs =>
      cases hm : urlMatch term (c :: cs) with
      | some rest =>
        rw [removeUrlsAux_cons_some term c cs rest hm]
        right
        refine ⟨0, by simp, ?_⟩
        simp only [List.drop_zero]
        rcases urlMatch_some_rest term hm with hrest | ⟨d, t, hrest, hd⟩
        · subst hrest
          left
          exact removeUrlsAux_nil term
        · subst hrest
          have hno : urlMatch term (d :: t) = none := by
            have hdh : d ≠ 'h' := by
              intro he
              rw [he, hh] at hd
              cases hd
            have h8 : ¬((d :: t).take 8 = "https://".data) := by
              intro hcontra
              have h48 : (d :: t).take 8 = d :: t.take 7 := rfl
              rw [h48] at hcontra
              refine hdh ?_
              have := congrArg (fun l => l.head?) hcontra
              simpa using this
            have h7 : ¬((d :: t).take 7 = "http://".data) := by
              intro hcontra
              have h47 : (d :: t).take 7 = d :: t.take 6 := rfl
              rw [h47] at hcontra
              refine hdh ?_
              have := congrArg (fun l => l.head?) hcontra
              simpa using this
            have hstrip : stripScheme (d :: t) = none := by
              unfold stripScheme
              rw [if_neg h8, if_neg h7]
            exact urlMatch_eq_none_of_strip term hstrip
          rw [removeUrlsAux_cons_none term d t hno]
          right
          exact ⟨d, removeUrlsAux term t, rfl, hd⟩
      | none =>
        rw [removeUrlsAux_cons_none term c cs hm]
        have hcs : cs.length ≤ n := by
          simp only [List.length_cons] at hl
          omega
        rcases ih cs hcs with heq | ⟨j, htake, hdrop⟩
        · left
          rw [heq]
        · right
          refine ⟨j + 1, ?_, ?_⟩
          · simp only [List.take_succ_cons, htake]
          · simpa only [List.drop_succ_cons] using hdrop

theorem shield_contra (term : Char → Bool) {cs X w rest P : List Char} {c d : Char}
    (hP : P = "https://".data ∨ P = "http://".data)
    (hcw : c :: w = P ++ [d])
    (hX : X = w ++ rest)
    (hw : ∀ x ∈ w, term x = false)
    (hd : term d = false)
    (hnone : urlMatch term (c :: cs) = none)
    (hsh : X = cs ∨ ∃ j, X.take j = cs.take j ∧
      (X.drop j = [] ∨ ∃ e t, X.drop j = e :: t ∧ term e = true)) :
    False := by
  rcases hsh with rfl | ⟨j, htake, hdrop⟩
  · have hsome : (urlMatch term (c :: X)).isSome = true := by
      rw [urlMatch_isSome_iff]
      refine ⟨P, d, rest, hP, ?_, hd⟩
      calc c :: X = (c :: w) ++ rest := by rw [hX]; rfl
      _ = (P ++ [d]) ++ rest := by rw [hcw]
      _ = P ++ d :: rest := by simp
    rw [hnone] at hsome
    cases hsome
  · by_cases hj : w.length ≤ j
    · have hXtake : X.take w.length = w := by
        rw [hX, List.take_left]
      have hcstake : cs.take w.length = w := by
        calc cs.take w.length = (cs.take j).take w.length := by
              rw [List.take_take, min_eq_left hj]
        _ = (X.take j).take w.length := by rw [htake]
        _ = X.take w.length := by rw [List.take_take, min_eq_left hj]
        _ = w := hXtake
      have hcseq : cs = w ++ cs.drop w.length := by
        conv_lhs => rw [← List.take_append_drop w.length cs, hcstake]
      have hsome : (urlMatch term (c :: cs)).isSome = true := by
        rw [urlMatch_isSome_iff]
        refine ⟨P, d, cs.drop w.length, hP, ?_, hd⟩
        calc c :: cs = c :: (w ++ cs.drop w.length) := by rw [← hcseq]
        _ = (c :: w) ++ cs.drop w.length := rfl
        _ = (P ++ [d]) ++ cs.drop w.length := by rw [hcw]
        _ = P ++ d :: cs.drop w.length := by simp
      rw [hnone] at hsome
      cases hsome
    · push_neg at hj
      have hXdrop : X.drop j = w.drop j ++ rest := by
        rw [hX, List.drop_append_of_le_length (Nat.le_of_lt hj)]
      have hwj : w.drop j = w[j] :: w.drop (j + 1) := by
        exact List.drop_eq_getElem_cons hj
      rcases hdrop with hnil | ⟨e, t, het, hterm⟩
      · rw [hXdrop, hwj] at hnil
        cases hnil
      · rw [hXdrop, hwj, List.cons_append] at het
        injection het with h1 _
        have hwmem : term w[j] = false := hw _ (List.getElem_mem hj)
        rw [h1, hterm] at hwmem
        cases hwmem

theorem urlMatch_none_preserved (term : Char → Bool)
    (hlit : ∀ c ∈ "https://".data, term c = false)
    {c : Char} {cs X : List Char}
    (hnone : urlMatch term (c :: cs) = none)
    (hsh : X = cs ∨ ∃ j, X.take j = cs.take j ∧
      (X.drop j = [] ∨ ∃ e t, X.drop j = e :: t ∧ term e = true)) :
    urlMatch term (c :: X) = none := by
  cases hres : urlMatch term (c :: X) with
  | none => rfl
  | some r =>
    exfalso
    have hsome : (urlMatch term (c :: X)).isSome = true := by rw [hres]; rfl
    obtain ⟨P, d, rest, hP, heq, hd⟩ := (urlMatch_isSome_iff term _).mp hsome
    rcases hP with rfl | rfl
    · have heq' : c :: X = 'h' :: ("ttps://".data ++ d :: rest) := heq
      injection heq' with hc hX0
      have hXw : X = ("ttps://".data ++ [d]) ++ rest := by
        rw [hX0]
        simp
      refine shield_contra term (Or.inl rfl) ?_ hXw ?_ hd hnone hsh
      · rw [hc]
        rfl
      · intro x hx
        rcases List.mem_append.mp hx with hx | hx
        · refine hlit x ?_
          have hsplit : "https://".data = 'h' :: "ttps://".data := rfl
          rw [hsplit]
          exact List.mem_cons_of_mem _ hx
        · simp only [List.mem_singleton] at hx
          subst hx
          exact hd
    · have heq' : c :: X = 'h' :: ("ttp://".data ++ d :: rest) := heq
      injection heq' with hc hX0
      have hXw : X = ("ttp://".data ++ [d]) ++ rest := by
        rw [hX0]
        simp
      refine shield_contra term (Or.inr rfl) ?_ hXw ?_ hd hnone hsh
      · rw [hc]
        rfl
      · intro x hx
        rcases List.mem_append.mp hx with hx | hx
        · refine hlit x ?_
          have hsub : ∀ y ∈ "ttp://".data, y ∈ "https://".data := by
            intro y hy
            have hd6 : "ttp://".data = ['t', 't', 'p', ':', '/', '/'] := rfl
            rw [hd6] at hy
            simp only [List.mem_cons, List.not_mem_nil, or_false] at hy
            rcases hy with rfl | rfl | rfl | rfl | rfl | rfl <;> decide
          exact hsub x hx
        · simp only [List.mem_singleton] at hx
          subst hx
          exact hd

theorem removeUrls_no_residual (term : Char → Bool)
    (hlit : ∀ c ∈ "https://".data, term c = false) :
    ∀ (n : Nat) (l : List Char), l.length ≤ n →
      hasURLSub term (removeUrlsAux term l) = false := by
  intro n
  induction n with
  | zero =>
    intro l hl
    have hnil : l = [] := List.length_eq_zero.mp (Nat.le_zero.mp hl)
    subst hnil
    rw [removeUrlsAux_nil]
    exact hasURLSub_nil term
  | succ n ih =>
    intro l hl
    cases l with
    | nil =>
      rw [removeUrlsAux_nil]
      exact hasURLSub_nil term
    | cons c cs =>
      cases hm : urlMatch term (c :: cs) with
      | some rest =>
        rw [removeUrlsAux_cons_some term c cs rest hm]
        have hlen := urlMatch_length term hm
        refine ih rest ?_
        simp only [List.length_cons] at hl hlen
        omega
      | none =>
        rw [removeUrlsAux_cons_none term c cs hm]
        rw [hasURLSub_cons]
        have hcs : cs.length ≤ n := by
          simp only [List.length_cons] at hl
          omega
        have hh : term 'h' = false := hlit 'h' (by decide)
        have hpres : urlMatch term (c :: removeUrlsAux term cs) = none :=
          urlMatch_none_preserved term hlit hm (removeUrls_shield term hh n cs hcs)
        rw [hpres]
        simp only [Option.isSome_none, Bool.false_or]
        exact ih cs hcs

/-- Claim C3 as stated is false: inside a character class Python's
`\b` is the backspace character, so the code's run terminators are
whitespace, `<` AND backspace.  On `"http://a\x08b"` the code deletes
only `"http://a"` (stopping at the backspace) while the claim's
deletion rule (terminators: whitespace and `<` only) would delete the
whole string; and on `"http://\x08http://a b"` the code's output still
contains a substring matching the claim's reading of the URL pattern. -/
theorem c3_counterexample :
    f_remove_urls "http://a\x08b" = "\x08b"
    ∧ spec_remove_urls "http://a\x08b" = ""
    ∧ ("\x08b" : String) ≠ ""
    ∧ f_remove_urls "http://\x08http://a b" = "http://\x08 b"
    ∧ hasURLSub urlTermCharSpec "http://\x08 b".data = true := by
  refine ⟨?_, ?_, by decide, ?_, by decide⟩
  · simp [f_remove_urls, removeUrlsAux, urlMatch, stripScheme, urlTermChar, isPySpace]
  · simp [spec_remove_urls, removeUrlsAux, urlMatch, stripScheme, urlTermCharSpec,
      isPySpace]
  · simp [f_remove_urls, removeUrlsAux, urlMatch, stripScheme, urlTermChar, isPySpace]

/-- C3 (amended): URL removal deletes every non-overlapping maximal
substring beginning `http://` or `https://` and continuing up to (but
excluding) the next whitespace, `<` or backspace character; afterwards
no substring matching that pattern remains in the text. -/
theorem c3_no_residual (s : String) :
    hasURLSub urlTermChar (f_remove_urls s).data = false := by
  have hlit : ∀ c ∈ "https://".data, urlTermChar c = false := by decide
  exact removeUrls_no_residual urlTermChar hlit s.data.length s.data (Nat.le_refl _)

end CleanText
